import Mathlib

/-
  Verification development for the oncall-runbook retrieval/answer pipeline.

  Python strings are modelled as `List Char`; Python floats as `ℚ` (exact
  arithmetic in place of IEEE doubles); Python dicts as insertion-ordered
  association lists; fallible external collaborators as `Except`-valued
  oracles.  Each definition is a direct transcription of the corresponding
  function in the repository source (file and function named in its
  doc comment).
-/

namespace Runbook

/-- Convert a Lean string literal to the `List Char` string model. -/
def str (s : String) : List Char := s.data

/-- Python regex `\s` / `str.strip` whitespace class (ASCII). -/
def wsChar (c : Char) : Bool :=
  c == ' ' || c == '\t' || c == '\n' || c == '\r' || c == '\x0b' || c == '\x0c'

/-- Python `str.lower` (ASCII model, via `Char.toLower`). -/
def lowerL (cs : List Char) : List Char := cs.map Char.toLower

/-- Length of the leading whitespace run (regex `\s*` maximal munch). -/
def countWs : List Char → Nat
  | [] => 0
  | c :: rest => if wsChar c then countWs rest + 1 else 0

/-- Python `str.strip()`: drop leading and trailing whitespace. -/
def stripWs (cs : List Char) : List Char :=
  ((cs.dropWhile (fun c => wsChar c)).reverse.dropWhile (fun c => wsChar c)).reverse

/-- Index of the first occurrence of `pat` as a contiguous sublist (regex
`search` for a literal pattern), if any. -/
def findSub (pat : List Char) : List Char → Option Nat
  | [] => if pat.isEmpty then some 0 else none
  | c :: rest =>
    if pat.isPrefixOf (c :: rest) then some 0
    else (findSub pat rest).map (· + 1)

/-- Python `pat in s` (substring containment). -/
def isSubList (pat cs : List Char) : Bool := (findSub pat cs).isSome

/-- Decimal rendering of a natural number (Python f-string `{n}`). -/
def natStr (n : Nat) : List Char := (Nat.repr n).data

/-- Python `", ".join`-style interleaving. -/
def joinWith (sep : List Char) : List (List Char) → List Char
  | [] => []
  | [x] => x
  | x :: y :: rest => x ++ sep ++ joinWith sep (y :: rest)

namespace Gate

/-!
## src/api/app/services/anti_generic_gate.py — AntiGenericGate

The banned-phrase regexes all have the shape `w1\s+w2\s+...\s+wn` applied
with `re.IGNORECASE` (trailing `s?` / `(?:es)?` optionals do not occur in
this file), so each is modelled as its list of lowercase words, matched as
word₁, one-or-more whitespace, word₂, ... .
-/

/-- Does the phrase (list of words) match at the head of `cs`?  Returns the
length of the matched text (regex `group(0)`); `\s+` maximal munch is exact
here because every word starts with a non-whitespace character. -/
def phraseLenAt : List (List Char) → List Char → Option Nat
  | [], _ => some 0
  | [w], cs => if w.isPrefixOf cs then some w.length else none
  | w :: ws, cs =>
    if w.isPrefixOf cs then
      let rest := cs.drop w.length
      let k := countWs rest
      if k == 0 then none
      else (phraseLenAt ws (rest.drop k)).map (fun m => w.length + k + m)
    else none

/-- Leftmost match of a phrase in `cs` (regex `search`): start index and
match length. -/
def phraseFindLen (p : List (List Char)) : List Char → Option (Nat × Nat)
  | [] => (phraseLenAt p []).map (fun l => (0, l))
  | c :: rest =>
    match phraseLenAt p (c :: rest) with
    | some l => some (0, l)
    | none => (phraseFindLen p (c :: rest).tail).map (fun pr => (pr.1 + 1, pr.2))

/-- The 20 banned generic-phrase patterns (`self.banned_phrases`), each as
its lowercase word list. -/
def bannedPhrases : List (List (List Char)) :=
  [ [str "check", str "the", str "relevant", str "documentation"]
  , [str "refer", str "to", str "the", str "retrieved", str "documentation"]
  , [str "based", str "on", str "the", str "retrieved", str "context"]
  , [str "consult", str "the", str "docs"]
  , [str "check", str "the", str "documentation"]
  , [str "refer", str "to", str "documentation"]
  , [str "see", str "the", str "documentation"]
  , [str "review", str "the", str "documentation"]
  , [str "look", str "at", str "the", str "documentation"]
  , [str "examine", str "the", str "documentation"]
  , [str "consult", str "relevant", str "docs"]
  , [str "check", str "appropriate", str "documentation"]
  , [str "refer", str "to", str "appropriate", str "docs"]
  , [str "based", str "on", str "available", str "information"]
  , [str "according", str "to", str "the", str "context"]
  , [str "as", str "per", str "the", str "retrieved", str "information"]
  , [str "from", str "the", str "provided", str "context"]
  , [str "based", str "on", str "what", str "was", str "found"]
  , [str "according", str "to", str "what", str "was", str "retrieved"]
  , [str "based", str "on", str "the", str "available", str "context"] ]

/-- `_check_banned_phrases`: for each pattern (in order) that matches, the
matched text (`match.group(0)`, taken from the original-case answer). -/
def foundPhrases (answer : List Char) : List (List Char) :=
  let low := lowerL answer
  bannedPhrases.foldl
    (fun acc p =>
      match phraseFindLen p low with
      | some pr => acc ++ [(answer.drop pr.1).take pr.2]
      | none => acc)
    []

/-- The bullet characters of regex `[•\-*]`. -/
def bulletChar (c : Char) : Bool := c == '•' || c == '-' || c == '*'

/-- Number of matches of `findall(r'[•\-*]\s+', s)`.  Since the consumed
whitespace run never contains a bullet character, the non-overlapping match
count equals the number of positions holding a bullet character followed by
a whitespace character. -/
def countBullets : List Char → Nat
  | [] => 0
  | [_] => 0
  | a :: b :: rest =>
    (if bulletChar a && wsChar b then 1 else 0) + countBullets (b :: rest)

/-- Leading digit-run length (regex `\d+` maximal munch). -/
def digitRun : List Char → Nat
  | [] => 0
  | c :: rest => if c.isDigit then digitRun rest + 1 else 0

/-- Regex `\.\s` at the head of a string: a literal dot followed by one
whitespace character (the rest of `\s+` is consumed greedily and affects no
counts). -/
def dotWs : List Char → Bool
  | c :: w :: _ => c = '.' && wsChar w
  | _ => false

/-- Does a match of `\d+\.\s+` start exactly here (caller guarantees the
previous character is not a digit, so the run is maximal)? -/
def numberedAt (cs : List Char) : Bool :=
  decide (0 < digitRun cs) && dotWs (cs.drop (digitRun cs))

/-- Number of matches of `findall(r'\d+\.\s+', s)`: one per maximal digit
run that is directly followed by `.` and whitespace (the greedy
non-overlapping scan matches exactly at those run starts). -/
def countNumberedGo : Bool → List Char → Nat
  | _, [] => 0
  | prevDigit, c :: rest =>
    (if !prevDigit && c.isDigit && numberedAt (c :: rest) then 1 else 0) +
      countNumberedGo c.isDigit rest

def countNumbered (cs : List Char) : Nat := countNumberedGo false cs

/-- Lazy stop offset of `.*?(?=\*\*|$)` under `re.DOTALL`: the first
position lying before `**`, at the end of the string, or before a final
trailing newline (`$` without `re.MULTILINE`). -/
def lazyStop : List Char → Nat
  | [] => 0
  | c :: rest =>
    if c = '\n' ∧ rest = [] then 0
    else if c = '*' ∧ rest.head? = some '*' then 0
    else 1 + lazyStop rest

/-- Matched text of `re.search(r'\*\*H\*\*.*?(?=\*\*|$)', answer, DOTALL |
IGNORECASE)` for the literal header `header` (given in lowercase), computed
on the lowercased answer — case does not affect the bullet characters
counted in the region. -/
def headerRegion (header low : List Char) : Option (List Char) :=
  match findSub header low with
  | none => none
  | some i =>
    let rest := (low.drop i).drop header.length
    some (header ++ rest.take (lazyStop rest))

/-- First pattern of the group that matches, and its region
(`for pattern in ...: if match: ...; break`). -/
def firstRegion : List (List Char) → List Char → Option (List Char)
  | [], _ => none
  | h :: hs, low =>
    match headerRegion h low with
    | some r => some r
    | none => firstRegion hs low

/-- `first_checks_patterns` header literals (lowercased). -/
def firstChecksHeaders : List (List Char) :=
  [ str "**first checks:**", str "**quick check:**", str "**quick checks:**"
  , str "**initial checks:**", str "**first response:**"
  , str "**immediate actions:**" ]

/-- `fix_patterns` header literals (lowercased). -/
def fixHeaders : List (List Char) :=
  [ str "**fix:**", str "**remediation:**", str "**solution:**"
  , str "**resolution:**", str "**steps:**" ]

/-- Bullet count of a header group's matched section (0 when no pattern of
the group matches). -/
def regionCount (hs : List (List Char)) (low : List Char) : Nat :=
  match firstRegion hs low with
  | some r => countBullets r
  | none => 0

/-- `_count_actionable_bullets`. -/
def countActionableBullets (answer : List Char) : Nat :=
  let low := lowerL answer
  let base := regionCount firstChecksHeaders low + regionCount fixHeaders low +
    countNumbered answer
  if base < 3 then countBullets answer else base

/-- `_calculate_evidence_score`.  `diag` models the optional diagnostics
dict by its key list (`none` = Python `None`; `some []` = `{}`, falsy). -/
def evidenceScore (citations : List (List Char))
    (diag : Option (List (List Char))) : Nat :=
  let base := if citations.isEmpty then 0 else min citations.length 3
  match diag with
  | none => base
  | some keys =>
    if keys.isEmpty then base
    else
      let hasLogs := (keys.contains (str "logs")) || (keys.contains (str "app"))
        || (keys.contains (str "nginx")) || (keys.contains (str "system"))
      let hasQueues := (keys.contains (str "queues")) || (keys.contains (str "main"))
        || (keys.contains (str "dlq")) || (keys.contains (str "processing"))
      base + (if hasLogs || hasQueues then 1 else 0) +
        (if 3 ≤ keys.length then 1 else 0)

/-- Filename part of a citation: `citation.split('#')[0]` when it contains
`#`, the whole citation otherwise (the two branches coincide). -/
def citationFile (c : List Char) : List Char := c.takeWhile (fun ch => ch ≠ '#')

/-- `_count_distinct_files` (cardinality of the set of filenames). -/
def distinctFiles (citations : List (List Char)) : Nat :=
  if citations.isEmpty then 0 else ((citations.map citationFile).dedup).length

structure GateMetrics where
  actionable_bullets : Nat
  evidence_score : Nat
  distinct_files : Nat
  generic_phrases_found : Nat
deriving DecidableEq, Repr

structure QualityReport where
  passes_gate : Bool
  quality_score : Int
  issues : List (List Char)
  missing_context : Option (List Char)
  metrics : GateMetrics
deriving DecidableEq, Repr

/-- Pieces of the `_generate_missing_context_message` f-string template. -/
def msgA : List Char := str "**Missing Context Detected**\n\nYour question requires more specific information than what\x27s currently available in the knowledge base. \n\n**Missing Sections:** "
def msgB : List Char := str "\n\n**To get a specific, actionable answer, please upload documentation covering:**\n- **First Response/Diagnostics**: Step-by-step investigation procedures\n- **Remediation/Fix**: Specific commands, configuration changes, or procedures\n- **Validation/SLA**: How to verify the fix worked and measure success\n\n**Current Answer Quality:**\n"
def msgC : List Char := str "- Actionable bullets: "
def msgD : List Char := str "/3 required\n"
def msgE : List Char := str "- Evidence score: "
def msgF : List Char := str "/2 required  \n"
def msgG : List Char := str "- Distinct files: "
def msgH : List Char := str "/2 required\n\nUpload the missing documentation to receive a specific, cited response instead of generic guidance."

/-- The generic fallback message of `_generate_missing_context_message`
(taken when no missing section was identified). -/
def msgFallback : List Char := str "**Answer Quality Issue Detected**\n\nThe generated answer doesn\x27t meet our quality standards for specificity and actionability. Please try rephrasing your question or upload additional documentation to receive a better response."

/-- `_generate_missing_context_message`. -/
def genMissingContext (issues : List (List Char))
    (bullets evidence files : Nat) : List Char :=
  let missingSections : List (List Char) :=
    (if bullets < 3 then [str "**First Response/Diagnostics**"] else []) ++
    (if evidence < 2 then [str "**Detailed Diagnostics**"] else []) ++
    (if files < 2 then [str "**Remediation/Fix Procedures**"] else []) ++
    (if issues.any (fun s => isSubList (str "generic phrases") s)
       then [str "**Specific Action Steps**"] else [])
  if missingSections.isEmpty then msgFallback
  else
    msgA ++ joinWith (str ", ") missingSections ++ msgB ++
      msgC ++ natStr bullets ++ msgD ++
      msgE ++ natStr evidence ++ msgF ++
      msgG ++ natStr files ++ msgH

/-- `check_answer_quality`. -/
def checkAnswerQuality (answer : List Char) (citations : List (List Char))
    (diag : Option (List (List Char))) : QualityReport :=
  let genericFound := foundPhrases answer
  let bullets := countActionableBullets answer
  let evidence := evidenceScore citations diag
  let files := distinctFiles citations
  let issues : List (List Char) :=
    (if genericFound.isEmpty then []
     else [str "Contains generic phrases: " ++ joinWith (str ", ") genericFound]) ++
    (if bullets < 3
     then [str "Insufficient actionable content: " ++ natStr bullets ++
             str "/3 bullets required"] else []) ++
    (if evidence < 2
     then [str "Insufficient evidence: " ++ natStr evidence ++
             str "/2 required"] else []) ++
    (if files < 2
     then [str "Insufficient file coverage: " ++ natStr files ++
             str "/2 distinct files required"] else [])
  let score : Int :=
    (if genericFound.isEmpty then 0 else -2) +
    (if bullets < 3 then -1 else 0) +
    (if evidence < 2 then -1 else 0) +
    (if files < 2 then -1 else 0)
  let passes := decide (0 ≤ score) && issues.isEmpty
  { passes_gate := passes
  , quality_score := score
  , issues := issues
  , missing_context :=
      if passes then none else some (genMissingContext issues bullets evidence files)
  , metrics :=
      { actionable_bullets := bullets
      , evidence_score := evidence
      , distinct_files := files
      , generic_phrases_found := genericFound.length } }

/-- `enforce_gate`. -/
def enforceGate (answer : List Char) (citations : List (List Char))
    (diag : Option (List (List Char))) : Bool × List Char × QualityReport :=
  let q := checkAnswerQuality answer citations diag
  if q.passes_gate then (true, answer, q)
  else (false, q.missing_context.getD [], q)

end Gate

namespace Rag

/-- Final-response assembly of `RAGService.ask_question`
(src/api/app/services/rag_service.py, lines 84–99): on gate failure the
response drops citations, zeroes confidence and drops diagnostics. -/
structure RagResponse where
  answer : List Char
  citations : List (List Char)
  confidence : ℚ
  diagnostics : Option (List (List Char))
  gate_passed : Bool
deriving DecidableEq

def buildRagResponse (passes : Bool) (finalAnswer : List Char)
    (finalCitations : List (List Char)) (confidence : ℚ)
    (diag : Option (List (List Char))) : RagResponse :=
  { answer := finalAnswer
  , citations := if passes then finalCitations else []
  , confidence := if passes then confidence else 0
  , diagnostics := if passes then diag else none
  , gate_passed := passes }

end Rag

namespace Retrieval

/-!
## src/api/app/services/retrieval.py — RetrievalPipeline

Chunks are modelled by the fields the pipeline reads
(`_get_chunk_id` / `_extract_chunk_features`); scores are exact rationals
in place of floats; the weights are `vector_weight = 0.6`,
`bm25_weight = 0.4`, `mmr_lambda = 0.7` from `__init__`.
-/

structure RChunk where
  cid : Option (List Char)
  filename : List Char
  section_type : List Char
  content_length : ℚ
  has_commands : Bool
  has_metrics : Bool
deriving DecidableEq, Repr

/-- `_get_chunk_id` followed by the caller's `if chunk_id:` truthiness
test: `None` and the empty string are both skipped. -/
def truthyId (c : RChunk) : Option (List Char) :=
  match c.cid with
  | none => none
  | some s => if s = [] then none else some s

structure MergeEntry where
  chunk : RChunk
  vector_score : ℚ
  bm25_score : ℚ
  combined_score : ℚ
deriving DecidableEq, Repr

/-- Keys of the insertion-ordered dict model. -/
def keys (m : List (List Char × MergeEntry)) : List (List Char) :=
  m.map Prod.fst

def hasKey (id : List Char) (m : List (List Char × MergeEntry)) : Bool :=
  m.any (fun p => decide (p.1 = id))

/-- Python dict assignment `m[id] = e`: replaces in place (keeping the
original position) or appends. -/
def dictSet (id : List Char) (e : MergeEntry)
    (m : List (List Char × MergeEntry)) : List (List Char × MergeEntry) :=
  if hasKey id m then m.map (fun p => if p.1 = id then (id, e) else p)
  else m ++ [(id, e)]

def dictFind (id : List Char) (m : List (List Char × MergeEntry)) :
    Option MergeEntry :=
  (m.find? (fun p => decide (p.1 = id))).map Prod.snd

/-- First phase of `_merge_results`: add the vector results. -/
def addVector (m : List (List Char × MergeEntry)) (v : List (RChunk × ℚ)) :
    List (List Char × MergeEntry) :=
  v.foldl
    (fun m p =>
      match truthyId p.1 with
      | none => m
      | some id =>
        dictSet id ⟨p.1, p.2, 0, p.2 * (0.6 : ℚ)⟩ m)
    m

/-- Second phase of `_merge_results`: add/update with the BM25 results. -/
def addBm25 (m : List (List Char × MergeEntry)) (b : List (RChunk × ℚ)) :
    List (List Char × MergeEntry) :=
  b.foldl
    (fun m p =>
      match truthyId p.1 with
      | none => m
      | some id =>
        match dictFind id m with
        | some e =>
          dictSet id ⟨e.chunk, e.vector_score, p.2,
            e.combined_score + p.2 * (0.4 : ℚ)⟩ m
        | none => dictSet id ⟨p.1, 0, p.2, p.2 * (0.4 : ℚ)⟩ m)
    m

def mergedMap (v b : List (RChunk × ℚ)) : List (List Char × MergeEntry) :=
  addBm25 (addVector [] v) b

/-- Descending-by-combined-score comparison used for the stable sort
(`merged_list.sort(key=..., reverse=True)`). -/
def scoreGe (x y : MergeEntry) : Prop := y.combined_score ≤ x.combined_score

instance : DecidableRel scoreGe := fun x y =>
  inferInstanceAs (Decidable (y.combined_score ≤ x.combined_score))

instance : IsTotal MergeEntry scoreGe :=
  ⟨fun a b => le_total b.combined_score a.combined_score⟩

instance : IsTrans MergeEntry scoreGe :=
  ⟨fun _ _ _ h1 h2 => le_trans h2 h1⟩

/-- `_merge_results`: merge by chunk id, stable-sort by combined score
descending, return the top `top_k` as `(chunk, combined_score)` pairs. -/
def mergeResults (v b : List (RChunk × ℚ)) (top_k : Nat) :
    List (RChunk × ℚ) :=
  let sorted := ((mergedMap v b).map Prod.snd).insertionSort scoreGe
  (sorted.take top_k).map (fun e => (e.chunk, e.combined_score))

/-- Vector-side score of a chunk id (0 when absent). -/
def vLookId (v : List (RChunk × ℚ)) (id : List Char) : ℚ :=
  match v.find? (fun p => decide (truthyId p.1 = some id)) with
  | some p => p.2
  | none => 0

def bFind (b : List (RChunk × ℚ)) (id : List Char) : Option (RChunk × ℚ) :=
  b.find? (fun p => decide (truthyId p.1 = some id))

/-- BM25-side score of a chunk id (0 when absent). -/
def bLookId (b : List (RChunk × ℚ)) (id : List Char) : ℚ :=
  match bFind b id with
  | some p => p.2
  | none => 0

/-- Closed form of the vector phase (on distinct ids it only appends). -/
def vEntry (p : RChunk × ℚ) : Option (List Char × MergeEntry) :=
  (truthyId p.1).map (fun id => (id, ⟨p.1, p.2, 0, p.2 * (0.6 : ℚ)⟩))

def vMap (v : List (RChunk × ℚ)) : List (List Char × MergeEntry) :=
  v.filterMap vEntry

/-- Closed form of one BM25 update on an existing entry. -/
def updEntry (b : List (RChunk × ℚ)) (kv : List Char × MergeEntry) :
    List Char × MergeEntry :=
  match bFind b kv.1 with
  | some q => (kv.1, ⟨kv.2.chunk, kv.2.vector_score, q.2,
      kv.2.combined_score + q.2 * (0.4 : ℚ)⟩)
  | none => kv

/-- Closed form of the BM25-only appended entries. -/
def bNew (b : List (RChunk × ℚ)) (ks : List (List Char)) :
    List (List Char × MergeEntry) :=
  b.filterMap
    (fun q =>
      match truthyId q.1 with
      | some id =>
        if id ∈ ks then none else some (id, ⟨q.1, 0, q.2, q.2 * (0.4 : ℚ)⟩)
      | none => none)

/-!
### MMR diversity selection and the diversity-constraint post-pass
-/

/-- `_extract_chunk_features` (dict branch; the fields default as in the
source when missing). -/
structure Features where
  filename : List Char
  section_type : List Char
  content_length : ℚ
  has_commands : Bool
  has_metrics : Bool
deriving DecidableEq, Repr

def extractChunkFeatures (c : RChunk) : Features :=
  ⟨c.filename, c.section_type, c.content_length, c.has_commands,
    c.has_metrics⟩

/-- `_calculate_feature_similarity`: weighted blend, normalized by the
total weight 0.4 + 0.3 + 0.1 + 0.2 = 1. -/
def featureSimilarity (f1 f2 : Features) : ℚ :=
  let s1 : ℚ := if f1.filename = f2.filename then 0.4 else 0
  let s2 : ℚ := if f1.section_type = f2.section_type then 0.3 else 0
  let lenDiff := |f1.content_length - f2.content_length|
  let maxLen := max f1.content_length f2.content_length
  let s3 : ℚ := if 0 < maxLen then (0.1 : ℚ) * (1 - lenDiff / maxLen) else 0
  let s4 : ℚ := if f1.has_commands = f2.has_commands then 0.1 else 0
  let s5 : ℚ := if f1.has_metrics = f2.has_metrics then 0.1 else 0
  let total : ℚ := 0.4 + 0.3 + 0.1 + 0.2
  if 0 < total then (s1 + s2 + s3 + s4 + s5) / total
  else s1 + s2 + s3 + s4 + s5

/-- `_calculate_diversity`: one minus the maximum feature similarity to the
already-selected chunks, clamped at 0. -/
def calcDiversity (c : RChunk) (selected : List (RChunk × ℚ)) : ℚ :=
  if selected = [] then 1
  else
    let f := extractChunkFeatures c
    let maxSim := selected.foldl
      (fun acc p => max acc (featureSimilarity f (extractChunkFeatures p.1))) 0
    max 0 (1 - maxSim)

def mmrLambda : ℚ := 0.7

/-- Descending comparison on the MMR score (third component). -/
def mmrGe (x y : RChunk × ℚ × ℚ) : Prop := y.2.2 ≤ x.2.2

instance : DecidableRel mmrGe := fun x y =>
  inferInstanceAs (Decidable (y.2.2 ≤ x.2.2))

instance : IsTotal (RChunk × ℚ × ℚ) mmrGe :=
  ⟨fun a b => le_total b.2.2 a.2.2⟩

instance : IsTrans (RChunk × ℚ × ℚ) mmrGe :=
  ⟨fun _ _ _ h1 h2 => le_trans h2 h1⟩

/-- Body of the `while len(selected) < top_k and remaining` loop of
`_mmr_diversity_selection`; `fuel` bounds the iteration count (each
iteration strictly shrinks `remaining`, so `remaining.length` suffices). -/
def mmrLoop (top_k : Nat) : Nat → List (RChunk × ℚ) → List (RChunk × ℚ) →
    List (RChunk × ℚ)
  | 0, selected, _ => selected
  | Nat.succ fuel, selected, remaining =>
    if selected.length < top_k ∧ remaining ≠ [] then
      let scores := remaining.map
        (fun p => (p.1, p.2, mmrLambda * p.2 + (1 - mmrLambda) *
          (if selected = [] then (0 : ℚ) else calcDiversity p.1 selected)))
      match scores.insertionSort mmrGe with
      | [] => selected
      | best :: _ =>
        mmrLoop top_k fuel (selected ++ [(best.1, best.2.1)])
          (remaining.filter (fun p => p.1 ≠ best.1))
    else selected

/-- `_mmr_diversity_selection`.  `embedOk` models whether the query
embedding was produced (its value is never used beyond that check). -/
def mmrDiversitySelection (embedOk : Bool) (candidates : List (RChunk × ℚ))
    (top_k : Nat) : List (RChunk × ℚ) :=
  if candidates.length ≤ top_k then candidates
  else if !embedOk then candidates.take top_k
  else
    match candidates with
    | [] => []
    | c0 :: rest => mmrLoop top_k (rest.length + 1) [c0] rest

def targetSectionTypes : List (List Char) :=
  [str "first_checks", str "fix", str "validate", str "policy"]

def minSectionCoverage : Nat := 2

/-- First pass of `_enforce_diversity_constraints` (with its early `break`
at `top_k`). -/
def enforceLoop (top_k : Nat) : List (RChunk × ℚ) → List (List Char) →
    List (List Char) → List (RChunk × ℚ) → List (RChunk × ℚ)
  | [], _, _, acc => acc
  | p :: rest, files, types, acc =>
    match truthyId p.1 with
    | none => enforceLoop top_k rest files types acc
    | some _ =>
      let fn := p.1.filename
      let st := p.1.section_type
      let improves := !files.contains fn ||
        (targetSectionTypes.contains st && !types.contains st)
      if improves || decide (acc.length < minSectionCoverage) then
        let acc2 := acc ++ [p]
        if top_k ≤ acc2.length then acc2
        else enforceLoop top_k rest (files.insert fn) (types.insert st) acc2
      else enforceLoop top_k rest files types acc

/-- `while len(diverse_results) < top_k and remaining_results` fill loop. -/
def fillLoop (top_k : Nat) : List (RChunk × ℚ) → List (RChunk × ℚ) →
    List (RChunk × ℚ)
  | diverse, [] => diverse
  | diverse, r :: rest =>
    if diverse.length < top_k then fillLoop top_k (diverse ++ [r]) rest
    else diverse

/-- `_enforce_diversity_constraints`. -/
def enforceDiversityConstraints (results : List (RChunk × ℚ))
    (top_k : Nat) : List (RChunk × ℚ) :=
  if results.length ≤ top_k then results
  else
    let diverse := enforceLoop top_k results [] [] []
    let remaining := results.filter (fun p => decide (p ∉ diverse))
    fillLoop top_k diverse remaining

/-!
### `retrieve_diverse_results` orchestration with fallible collaborators
-/

/-- The pipeline's fallible collaborators (embedding service, FAISS index,
BM25 corpus, optional cross-encoder), modelled as `Except`-valued
oracles. -/
structure Oracles where
  rewriteQ : List Char → Except Nat (List Char)
  vectorSearch : List Char → Nat → Except Nat (List (RChunk × ℚ))
  bm25Search : List Char → Nat → Except Nat (List (RChunk × ℚ))
  crossAvailable : Bool
  crossRerank : List Char → List (RChunk × ℚ) →
    Except Nat (List (RChunk × ℚ))
  embedOk : Bool

/-- Steps 1–7 of `retrieve_diverse_results` inside its `try` block.  Note
the vector search receives the original query and BM25 the rewritten
one. -/
def retrievePipeline (o : Oracles) (q : List Char) (top_k : Nat) :
    Except Nat (List (RChunk × ℚ)) := do
  let rq ← o.rewriteQ q
  let v ← o.vectorSearch q (top_k * 2)
  let b ← o.bm25Search rq (top_k * 2)
  let merged := mergeResults v b (top_k * 3)
  let merged2 ← if o.crossAvailable then o.crossRerank q merged
    else pure merged
  let dv := mmrDiversitySelection o.embedOk merged2 top_k
  pure (enforceDiversityConstraints dv top_k)

/-- `_fallback_vector_search`: plain vector search, empty list on
failure. -/
def fallbackVectorSearch (o : Oracles) (q : List Char) (top_k : Nat) :
    List (RChunk × ℚ) :=
  match o.vectorSearch q top_k with
  | .ok r => r
  | .error _ => []

/-- `retrieve_diverse_results` with its `except` handler: a pipeline
failure falls back to plain vector search with the original query. -/
def retrieveDiverseResults (o : Oracles) (q : List Char) (top_k : Nat) :
    List (RChunk × ℚ) :=
  match retrievePipeline o q top_k with
  | .ok r => r
  | .error _ => fallbackVectorSearch o q top_k

/-- An oracle whose every collaborator raises. -/
def failingOracles : Oracles :=
  ⟨fun _ => .error 0, fun _ _ => .error 0, fun _ _ => .error 0, false,
    fun _ _ => .error 0, true⟩

end Retrieval

namespace Planner

/-- A bullet extracted by the planner.  `content` is the bullet text and
`sourceMeta` models `getattr(bullet.source_chunk, 'metadata', {})`:
`some m` when the source chunk carries a metadata dict (an insertion-ordered
association list), `none` when the attribute is missing or not a dict, in
which case the lookup below behaves exactly like a dict without the key. -/
structure PBullet where
  content : List Char
  sourceMeta : Option (List (List Char × List Char))
deriving DecidableEq

/-- `m.get(k, d)` on a Python dict modelled as an association list. -/
def metaGet (m : List (List Char × List Char)) (k d : List Char) : List Char :=
  match m.find? (fun p => decide (p.1 = k)) with
  | some p => p.2
  | none => d

/-- `source_metadata.get('section_type', 'unknown')`. -/
def chunkSectionType (b : PBullet) : List Char :=
  match b.sourceMeta with
  | some m => metaGet m (str "section_type") (str "unknown")
  | none => str "unknown"

def fcKey : List Char := str "first_checks"

def fixKey : List Char := str "fix"

def valKey : List Char := str "validate"

def fcWords : List (List Char) :=
  [str "check", str "verify", str "review", str "monitor", str "diagnose"]

def fixWords : List (List Char) :=
  [str "fix", str "resolve", str "restart", str "restore", str "clear"]

def valWords : List (List Char) :=
  [str "validate", str "confirm", str "test", str "ensure", str "verify"]

/-- `any(word in content_lower for word in ws)` — Python `in` on strings is
substring containment. -/
def anyWordIn (ws : List (List Char)) (cs : List Char) : Bool :=
  ws.any (fun w => isSubList w cs)

/-- `_classify_bullets_by_section`, returning the three lists of the
`classified` dict in key order (first_checks, fix, validate).  Each bullet is
dispatched exactly as in the source: if the source chunk metadata\x27s
section_type is one of the three dict keys the bullet joins that bucket and
the loop continues; otherwise the keyword chains on the lowercased content
run in order, defaulting to first_checks. -/
def classifyBullets : List PBullet → List PBullet × List PBullet × List PBullet
  | [] => ([], [], [])
  | b :: rest =>
    let r := classifyBullets rest
    let t := chunkSectionType b
    if t = fcKey then (b :: r.1, r.2.1, r.2.2)
    else if t = fixKey then (r.1, b :: r.2.1, r.2.2)
    else if t = valKey then (r.1, r.2.1, b :: r.2.2)
    else
      let cl := lowerL b.content
      if anyWordIn fcWords cl then (b :: r.1, r.2.1, r.2.2)
      else if anyWordIn fixWords cl then (r.1, b :: r.2.1, r.2.2)
      else if anyWordIn valWords cl then (r.1, r.2.1, b :: r.2.2)
      else (b :: r.1, r.2.1, r.2.2)

/-- Specification-side per-bullet bucket, written from the spec\x27s words:
prefer the source chunk\x27s own section_type when it is one of the three
buckets, only otherwise fall back to keyword matching on the bullet text,
and default to first_checks when nothing matches. -/
def bucketOf (b : PBullet) : List Char :=
  let t := chunkSectionType b
  if t = fcKey ∨ t = fixKey ∨ t = valKey then t
  else
    let cl := lowerL b.content
    if anyWordIn fcWords cl then fcKey
    else if anyWordIn fixWords cl then fixKey
    else if anyWordIn valWords cl then valKey
    else fcKey

end Planner

namespace Sectionizer

/-!
## src/api/app/services/sectionizer.py — Sectionizer

Strings are `List Char`; a document is split into lines on `'\n'` exactly as
Python `str.split('\n')` (which always yields at least one, possibly empty,
line).  The backtick character is written `Char.ofNat 96` throughout.
-/

/-- The backtick character. -/
def bt : Char := Char.ofNat 96

/-- Regex `\w` (ASCII model): letters, digits, underscore. -/
def wordCh (c : Char) : Bool := c.isAlphanum || c = '_'

/-- Python `s.split('\n')`: always returns at least one element. -/
def splitNl : List Char → List (List Char)
  | [] => [[]]
  | c :: rest =>
    match splitNl rest with
    | [] => [[]]
    | h :: t => if c = '\n' then [] :: h :: t else (c :: h) :: t

/-- Python `s.split(sep)` for a one-character separator: always returns at
least one element. -/
def splitOnC (sep : Char) : List Char → List (List Char)
  | [] => [[]]
  | c :: rest =>
    match splitOnC sep rest with
    | [] => [[]]
    | h :: t => if c = sep then [] :: h :: t else (c :: h) :: t

/-- `enumerate` starting at `n`, with the index second. -/
def enumFrom (n : Nat) : List (List Char) → List (List Char × Nat)
  | [] => []
  | l :: rest => (l, n) :: enumFrom (n + 1) rest

/-- Python `str.isupper` (ASCII model): at least one cased character and no
lowercase one. -/
def pyIsUpper (cs : List Char) : Bool :=
  cs.any (fun c => c.isAlpha) && cs.all (fun c => !c.isAlpha || c.isUpper)

/-- Python `s.endswith(x)` for a single character. -/
def endsWith (cs : List Char) (c : Char) : Bool := cs.getLast? == some c

/-- Does `^[A-Z][a-z]+(?:\s+[A-Z][a-z]+)*$` match from here?  The fuel is the
remaining length, which strictly decreases at every recursive call; alternate
quantifier splits never help because `[a-z]+` is followed by non-lowercase and
`\s+` by non-whitespace, so maximal munch is exact. -/
def titleCaseFrom : Nat → List Char → Bool
  | 0, _ => false
  | _ + 1, [] => false
  | fuel + 1, c :: rest =>
    let lowRun := (rest.takeWhile (fun x => x.isLower)).length
    let rem := rest.drop lowRun
    c.isUpper && decide (1 ≤ lowRun) &&
      (rem.isEmpty ||
        (decide (1 ≤ countWs rem) && titleCaseFrom fuel (rem.drop (countWs rem))))

def isTitleCase (cs : List Char) : Bool := titleCaseFrom cs.length cs

/-- `re.match(r'^\*\*([^*]+)\*\*$', line)`: the matched inner group, if any.
`[^*]+` is maximal-munch exact since it is followed by a literal `*`. -/
def boldInner (line : List Char) : Option (List Char) :=
  match line with
  | '*' :: '*' :: rest =>
    let body := rest.takeWhile (fun c => c ≠ '*')
    if 1 ≤ body.length ∧ rest.drop body.length = ['*', '*'] then some body
    else none
  | _ => none

/-- `re.match(r'^(\d+\.\s+)(.+)$', line)`-style tail: after the literal
prefix (digits/letter plus dot), `\s+` then `(.+)`.  Greedy `\s+` backtracks
just enough to leave `.+` one character, so `group(2)` drops
`min w (len − 1)` characters where `w` is the leading whitespace run; the
match needs at least one whitespace and two characters. -/
def wsThenRest (after : List Char) : Option (List Char) :=
  let w := countWs after
  if 1 ≤ w ∧ 2 ≤ after.length then
    some (stripWs (after.drop (min w (after.length - 1))))
  else none

/-- `_detect_heading`: the seven checks in source order, returning
`(title, level)`. -/
def detectHeading (line : List Char) : Option (List Char × Nat) :=
  let hashes := (line.takeWhile (fun c => c = '#')).length
  -- 1. markdown headings ^(#{1,6})\s+(.+)$
  if 1 ≤ hashes ∧ hashes ≤ 6 then
    match wsThenRest (line.drop hashes) with
    | some title => some (title, hashes)
    | none =>
      -- a line of 1–6 hashes not followed by whitespace-and-text falls
      -- through to the later checks, none of which can match it
      detectHeadingRest line
  else detectHeadingRest line
where
  /-- checks 2–7. -/
  detectHeadingRest (line : List Char) : Option (List Char × Nat) :=
    -- 2. ALL CAPS headings
    if pyIsUpper line ∧ 3 < line.length ∧ ¬(endsWith line '.') then
      some (stripWs line, 2)
    -- 3. Title Case headings
    else if isTitleCase line ∧ line.length < 100 ∧ ¬(endsWith line '.') then
      some (stripWs line, 3)
    else
      -- 4. numbered headings ^(\d+\.\s+)(.+)$
      let d := Gate.digitRun line
      match (if 1 ≤ d ∧ (line.drop d).head? = some '.' then
               wsThenRest (line.drop (d + 1)) else none) with
      | some title => some (title, 4)
      | none =>
        -- 5. lettered headings ^([A-Z]\.\s+)(.+)$
        match (match line with
               | a :: '.' :: rest => if a.isUpper then wsThenRest rest else none
               | _ => none) with
        | some title => some (title, 4)
        | none =>
          -- 6. bold headings ^\*\*([^*]+)\*\*$
          match boldInner line with
          | some body => some (stripWs body, 2)
          | none =>
            -- 7. ALL CAPS with colon
            if pyIsUpper line ∧ endsWith line ':' then
              some (stripWs line.dropLast, 2)
            else none

/-- Whether a phrase pattern (word list joined by `\s+`) is found anywhere in
`cs` (`pattern.search`). -/
def phraseSearch (p : List (List Char)) (cs : List Char) : Bool :=
  (Gate.phraseFindLen p cs).isSome

/-- `self.section_patterns`, in dict insertion order.  Each regex in the
source is a literal word sequence joined by `\s+` with at most a trailing
one-character-or-suffix optional (`s?`, `(?:es)?`), which never affects
whether `search` finds a match, so each pattern is modelled by its word list
with the trailing optional dropped.  The patterns are applied to the
lowercased title, making `re.IGNORECASE` redundant. -/
def sectionPatternGroups : List (List Char × List (List (List Char))) :=
  [ (str "first_checks",
     [ [str "first", str "check"]
     , [str "quick", str "check"], [str "initial", str "check"]
     , [str "immediate", str "action"], [str "first", str "response"]
     , [str "emergency", str "response"], [str "urgent", str "action"]
     , [str "initial", str "response"], [str "first", str "step"]
     , [str "immediate", str "step"] ])
  , (str "fix",
     [ [str "fix"], [str "remediation"], [str "resolution"], [str "solution"]
     , [str "corrective", str "action"], [str "repair"], [str "resolve"]
     , [str "correct"], [str "fix", str "step"]
     , [str "remediation", str "step"] ])
  , (str "validate",
     [ [str "validate"], [str "verification"], [str "confirm"], [str "check"]
     , [str "test"], [str "verify"], [str "validation", str "step"]
     , [str "verification", str "step"], [str "confirmation", str "step"]
     , [str "post", str "fix", str "check"] ])
  , (str "policy",
     [ [str "policy"], [str "policies"], [str "procedure"], [str "procedures"]
     , [str "guideline"], [str "guidelines"], [str "standard"]
     , [str "standards"], [str "rule"], [str "rules"], [str "requirement"]
     , [str "requirements"], [str "compliance"], [str "governance"] ])
  , (str "gotchas",
     [ [str "gotcha"], [str "gotchas"], [str "common", str "mistake"]
     , [str "pitfall"], [str "caveat"], [str "warning"], [str "caution"]
     , [str "important", str "note"], [str "key", str "point"]
     , [str "critical", str "note"], [str "watch", str "out"]
     , [str "be", str "careful"], [str "note:"], [str "warning:"]
     , [str "caution:"] ])
  , (str "background",
     [ [str "background"], [str "overview"], [str "introduction"]
     , [str "context"], [str "description"], [str "explanation"]
     , [str "rationale"], [str "reason"], [str "why"], [str "what", str "is"]
     , [str "definition"], [str "concept"], [str "theory"]
     , [str "principle"] ]) ]

/-- First pattern group with a matching pattern, if any. -/
def findGroup : List (List Char × List (List (List Char))) → List Char →
    Option (List Char)
  | [], _ => none
  | (t, pats) :: rest, low =>
    if pats.any (fun p => phraseSearch p low) then some t
    else findGroup rest low

/-- `_classify_section`. -/
def classifySection (title : List Char) : List Char :=
  let low := lowerL title
  match findGroup sectionPatternGroups low with
  | some t => t
  | none =>
    if [str "check", str "verify", str "confirm", str "test"].any
        (fun w => isSubList w low) then str "validate"
    else if [str "step", str "procedure", str "process", str "method"].any
        (fun w => isSubList w low) then str "fix"
    else if [str "note", str "important", str "warning", str "caution"].any
        (fun w => isSubList w low) then str "gotchas"
    else if [str "what", str "why", str "how", str "when", str "where"].any
        (fun w => isSubList w low) then str "background"
    else if [str "policy", str "rule", str "standard", str "requirement"].any
        (fun w => isSubList w low) then str "policy"
    else str "background"

/-- `re.sub(r'\s+', '-', ·)`: replace each maximal whitespace run by a single
hyphen. -/
def wsRunsToDashGo : Bool → List Char → List Char
  | _, [] => []
  | prevWs, c :: rest =>
    if wsChar c then
      (if prevWs then [] else ['-']) ++ wsRunsToDashGo true rest
    else c :: wsRunsToDashGo false rest

def wsRunsToDash (cs : List Char) : List Char := wsRunsToDashGo false cs

/-- Python `s.strip('-')`. -/
def stripDash (cs : List Char) : List Char :=
  ((cs.dropWhile (fun c => c = '-')).reverse.dropWhile (fun c => c = '-')).reverse

/-- The slug of `_build_hpath`: lowercase, drop characters outside
`[\w\s-]`, collapse whitespace runs to hyphens, strip hyphens. -/
def cleanTitle (title : List Char) : List Char :=
  stripDash (wsRunsToDash
    ((lowerL title).filter (fun c => wordCh c || wsChar c || c = '-')))

/-- A detected section.  The Python dataclass also carries a `metadata` dict
whose entries are copies of these fields plus content statistics; nothing
that determines which sections exist, their contents or their types reads it
back (the refinement pass recomputes its inputs from `content`), so it is not
modelled. -/
structure Section where
  title : List Char
  section_type : List Char
  level : Nat
  hpath : List Char
  start_line : Nat
  end_line : Nat
  content : List Char
deriving DecidableEq

/-- `_build_hpath`: level-1 sections are roots; otherwise the parent is the
latest already-emitted section of strictly smaller level. -/
def buildHpath (title : List Char) (level : Nat) (sections : List Section) :
    List Char :=
  let clean := cleanTitle title
  if level = 1 then clean
  else
    match sections.reverse.find? (fun s => decide (s.level < level)) with
    | some p => p.hpath ++ str "/" ++ clean
    | none => clean

/-- The character class of the first bullet pattern.  The source file holds
the UTF-8 bytes of `•` re-decoded as Latin-1, so the class is the three
characters U+00E2, U+20AC, U+00A2 plus `-` and `*`. -/
def bulletClassCh (c : Char) : Bool :=
  c == Char.ofNat 0xE2 || c == Char.ofNat 0x20AC || c == Char.ofNat 0xA2 ||
    c == '-' || c == '*'

/-- Match length of `\s*C\s+` at the current position for a character class
`cls` (none of whose members is whitespace): maximal whitespace run, one
class character, then at least one whitespace character, all maximal-munch
exact. -/
def wsClassWsLen (cls : Char → Bool) (cs : List Char) : Option Nat :=
  let w := countWs cs
  match (cs.drop w).head? with
  | some c =>
    if cls c then
      let w2 := countWs (cs.drop (w + 1))
      if 1 ≤ w2 then some (w + 1 + w2) else none
    else none
  | none => none

/-- Match length of `\s*\d+\.\s+` at the current position. -/
def wsNumDotWsLen (cs : List Char) : Option Nat :=
  let w := countWs cs
  let d := Gate.digitRun (cs.drop w)
  if 1 ≤ d ∧ (cs.drop (w + d)).head? = some '.' then
    let w2 := countWs (cs.drop (w + d + 1))
    if 1 ≤ w2 then some (w + d + 1 + w2) else none
  else none

/-- Match length of `\s*[A-Z]\.\s+` at the current position. -/
def wsLetterDotWsLen (cs : List Char) : Option Nat :=
  let w := countWs cs
  match cs.drop w with
  | a :: '.' :: rest =>
    if a.isUpper then
      let w2 := countWs rest
      if 1 ≤ w2 then some (w + 2 + w2) else none
    else none
  | _ => none

/-- `len(re.findall(pat, content, re.MULTILINE))` for a `^`-anchored pattern
whose matches are nonempty: scan left to right, attempting the match only at
line starts, consuming each match and tracking whether the next scan position
follows a newline.  The fuel is the content length (every step consumes at
least one character). -/
def countMultilineGo (matchLen : List Char → Option Nat) :
    Nat → Bool → List Char → Nat
  | 0, _, _ => 0
  | _ + 1, _, [] => 0  -- no pattern here matches the empty suffix
  | fuel + 1, lineStart, c :: rest =>
    match (if lineStart then matchLen (c :: rest) else none) with
    | some n =>
      let n1 := max n 1
      1 + countMultilineGo matchLen fuel
        (((c :: rest).take n1).getLast? == some '\n') ((c :: rest).drop n1)
    | none => countMultilineGo matchLen fuel (c == '\n') rest

def countMultiline (matchLen : List Char → Option Nat) (cs : List Char) :
    Nat :=
  countMultilineGo matchLen cs.length true cs

/-- `_count_bullet_points`: the sum of the three MULTILINE findall counts. -/
def countBulletPoints (content : List Char) : Nat :=
  countMultiline (wsClassWsLen bulletClassCh) content +
    countMultiline wsNumDotWsLen content +
    countMultiline wsLetterDotWsLen content

/-- `len(re.findall(r'```[\s\S]*?```', s))`: find an opening triple backtick,
then the earliest closing one; when an opener has no closer, no later opener
has one either, so the scan stops. -/
def countFencedGo : Nat → List Char → Nat
  | 0, _ => 0
  | fuel + 1, cs =>
    match findSub [bt, bt, bt] cs with
    | none => 0
    | some i =>
      let rest := cs.drop (i + 3)
      match findSub [bt, bt, bt] rest with
      | none => 0
      | some j => 1 + countFencedGo fuel (rest.drop (j + 3))

def countFenced (cs : List Char) : Nat := countFencedGo cs.length cs

/-- `len(re.findall(r'`[^`]+`', s))`: at each backtick, the maximal nonempty
non-backtick run must be followed by a closing backtick; on failure the scan
resumes one character further. -/
def countInlineGo : Nat → List Char → Nat
  | 0, _ => 0
  | fuel + 1, cs =>
    match findSub [bt] cs with
    | none => 0
    | some i =>
      let after := cs.drop (i + 1)
      let run := (after.takeWhile (fun c => c ≠ bt)).length
      if run = 0 then countInlineGo fuel after
      else if after.length = run then 0
      else 1 + countInlineGo fuel (after.drop (run + 1))

def countInline (cs : List Char) : Nat := countInlineGo cs.length cs

/-- `_count_code_blocks`. -/
def countCodeBlocks (content : List Char) : Nat :=
  countFenced content + countInline content

/-- `len(re.findall(r'\[([^\]]+)\]\(([^)]+)\)', s))`: both `[^…]+` groups are
maximal-munch exact; on failure the scan resumes after the opening
bracket. -/
def countMdLinksGo : Nat → List Char → Nat
  | 0, _ => 0
  | fuel + 1, cs =>
    match findSub ['['] cs with
    | none => 0
    | some i =>
      let after := cs.drop (i + 1)
      let run := (after.takeWhile (fun c => c ≠ ']')).length
      if 1 ≤ run ∧ run < after.length then
        match after.drop (run + 1) with
        | '(' :: t =>
          let run2 := (t.takeWhile (fun c => c ≠ ')')).length
          if 1 ≤ run2 ∧ run2 < t.length then
            1 + countMdLinksGo fuel (t.drop (run2 + 1))
          else countMdLinksGo fuel after
        | _ => countMdLinksGo fuel after
      else countMdLinksGo fuel after

def countMdLinks (cs : List Char) : Nat := countMdLinksGo cs.length cs

/-- `len(re.findall(r'https?://[^\s]+', s))`: at each occurrence of `http`,
the optional `s` then `://` then a nonempty non-whitespace run; on failure
the scan resumes one character further. -/
def countUrlsGo : Nat → List Char → Nat
  | 0, _ => 0
  | fuel + 1, cs =>
    match findSub (str "http") cs with
    | none => 0
    | some i =>
      let after := cs.drop (i + 4)
      let after2 := if after.head? = some 's' then after.drop 1 else after
      if (str "://").isPrefixOf after2 then
        let body := ((after2.drop 3).takeWhile (fun c => !wsChar c)).length
        if 1 ≤ body then 1 + countUrlsGo fuel ((after2.drop 3).drop body)
        else countUrlsGo fuel (cs.drop (i + 1))
      else countUrlsGo fuel (cs.drop (i + 1))

def countUrls (cs : List Char) : Nat := countUrlsGo cs.length cs

/-- `_count_links`. -/
def countLinks (content : List Char) : Nat :=
  countMdLinks content + countUrls content

/-- Is `w` a word-boundary-delimited (`\b…\b`) substring of `cs`?  `prev`
carries the character before the current position. -/
def hasWordSubGo (w : List Char) : Option Char → List Char → Bool
  | _, [] => false
  | prev, c :: rest =>
    ((match prev with | none => true | some p => !wordCh p) &&
      w.isPrefixOf (c :: rest) &&
      (match ((c :: rest).drop w.length).head? with
       | none => true
       | some d => !wordCh d)) ||
    hasWordSubGo w (some c) rest

def hasWordSub (w cs : List Char) : Bool := hasWordSubGo w none cs

/-- The command alternation of `_has_commands` (lowercase). -/
def commandWords : List (List Char) :=
  [str "ssh", str "curl", str "wget", str "git", str "docker", str "kubectl",
   str "helm", str "terraform", str "ansible", str "make", str "npm",
   str "yarn", str "pip", str "apt", str "yum", str "brew"]

/-- Last occurrence index of `pat` in `cs`. -/
def findLastSub (pat cs : List Char) : Option Nat :=
  (findSub pat.reverse cs.reverse).map (fun k => cs.length - pat.length - k)

/-- `_has_commands`, searched on the lowercased content (`re.IGNORECASE`;
backticks are unaffected by lowering).  The inline pattern
`` `[^`]*\b(cmd)\b[^`]*` `` matches iff some span between two consecutive
backticks — a middle segment of the backtick split — contains a
word-bounded command; the fenced pattern matches iff the window from the end
of the first ` ``` ` to the start of the last one is well-formed and contains
one (any matching window lies inside the widest one, whose delimiting
backticks are non-word characters, so boundaries at window edges agree). -/
def hasCommandsB (content : List Char) : Bool :=
  let low := lowerL content
  let segs := splitOnC bt low
  (segs.drop 1).dropLast.any
    (fun seg => commandWords.any (fun w => hasWordSub w seg)) ||
  (match findSub [bt, bt, bt] low, findLastSub [bt, bt, bt] low with
   | some i, some j =>
     if i + 3 ≤ j then
       let window := (low.drop (i + 3)).take (j - (i + 3))
       commandWords.any (fun w => hasWordSub w window)
     else false
   | _, _ => false)

/-- The word alternations of `_has_metrics` patterns 2 and 3 (lowercase). -/
def metricWords2 : List (List Char) :=
  [str "high", str "low", str "medium", str "critical", str "warning",
   str "error", str "success", str "failure"]

def metricWords3 : List (List Char) :=
  [str "threshold", str "limit", str "quota", str "rate", str "latency",
   str "throughput", str "availability", str "uptime"]

/-- The unit alternation of `_has_metrics` pattern 1 (lowercase). -/
def metricUnits : List (List Char) :=
  [str "ms", str "s", str "min", str "hour", str "day", str "%", str "mb",
   str "gb", str "tb", str "kb", str "bps", str "req/s", str "ops/s"]

/-- Does `\b\d+(?:\.\d+)?\s*(unit)\b` match at the current position (with
`prev` the preceding character)?  Both the digits-only and the
digits-dot-digits branch of the optional group are tried. -/
def metricNumAt (prev : Option Char) (cs : List Char) : Bool :=
  let tryUnit : List Char → Bool := fun r =>
    let w := countWs r
    metricUnits.any (fun u =>
      u.isPrefixOf (r.drop w) &&
      (let after := ((r.drop w).drop u.length).head?
       if wordCh (u.getLastD ' ') then
         match after with
         | none => true
         | some d => !wordCh d
       else
         match after with
         | none => false
         | some d => wordCh d))
  let d := Gate.digitRun cs
  (match prev with | none => true | some p => !wordCh p) && decide (1 ≤ d) &&
    (tryUnit (cs.drop d) ||
      ((cs.drop d).head? == some '.' &&
        (let d2 := Gate.digitRun (cs.drop (d + 1))
         decide (1 ≤ d2) && tryUnit (cs.drop (d + 1 + d2)))))

def hasMetricNumGo : Option Char → List Char → Bool
  | _, [] => false
  | prev, c :: rest =>
    metricNumAt prev (c :: rest) || hasMetricNumGo (some c) rest

/-- `_has_metrics`, searched on the lowercased content. -/
def hasMetricsB (content : List Char) : Bool :=
  let low := lowerL content
  hasMetricNumGo none low ||
    metricWords2.any (fun w => hasWordSub w low) ||
    metricWords3.any (fun w => hasWordSub w low)

/-- `_refine_section_type`: each source `if` whose inner type-guard fails
falls through to the next check, so the pair of nested conditions joins into
one guard per branch. -/
def refineSectionType (s : Section) : List Char :=
  let bp := countBulletPoints s.content
  let low := lowerL s.content
  if hasCommandsB s.content ∧ 2 < bp ∧
      (s.section_type = str "background" ∨ s.section_type = str "policy") then
    str "fix"
  else if hasMetricsB s.content ∧ 1 < bp ∧
      (s.section_type = str "background" ∨ s.section_type = str "policy") then
    str "validate"
  else if 5 < bp ∧ s.section_type = str "background" then str "fix"
  else if ([str "check", str "verify", str "confirm", str "test"].any
      (fun w => isSubList w low)) ∧ s.section_type = str "background" then
    str "validate"
  else if ([str "step", str "procedure", str "process", str "method"].any
      (fun w => isSubList w low)) ∧ s.section_type = str "background" then
    str "fix"
  else s.section_type

/-- `_post_process_sections`: the metadata enrichment is unmodelled (see
`Section`); the observable effect is the refined section type. -/
def postProcessSections (sections : List Section) : List Section :=
  sections.map (fun s => { s with section_type := refineSectionType s })

/-- The loop of `detect_sections` over the enumerated lines, carrying the
open section (if any), its collected content lines, and the emitted
sections.  A heading line closes the open section at `line_num - 1` and opens
a new one whose `hpath` is built against the sections already emitted
(including the just-closed one); a non-heading stripped line is appended to
the open section\x27s content and dropped when no section is open.  At the end
the open section is closed at the last line. -/
def detectSectionsGo (total : Nat) :
    List (List Char × Nat) → Option Section → List (List Char) →
    List Section → List Section
  | [], current, content, acc =>
    (match current with
     | some s =>
       acc ++
         [{ s with
            end_line := total - 1,
            content := joinWith (str "\n") content }]
     | none => acc)
  | (line, n) :: rest, current, content, acc =>
    let l := stripWs line
    match detectHeading l with
    | some (title, level) =>
      let acc2 :=
        match current with
        | some s =>
          acc ++
            [{ s with
               end_line := n - 1,
               content := joinWith (str "\n") content }]
        | none => acc
      detectSectionsGo total rest
        (some { title := title, section_type := classifySection title,
                level := level, hpath := buildHpath title level acc2,
                start_line := n, end_line := total - 1, content := [] })
        [] acc2
    | none =>
      match current with
      | some _ => detectSectionsGo total rest current (content ++ [l]) acc
      | none => detectSectionsGo total rest current content acc

/-- `detect_sections`. -/
def detectSections (content : List Char) : List Section :=
  let lines := splitNl content
  postProcessSections
    (detectSectionsGo lines.length (enumFrom 0 lines) none [] [])

end Sectionizer

namespace DocProcessor

/-!
## src/api/app/services/document_processor.py — DocumentProcessor

`chunk_size` and `chunk_overlap` take their defaults 800 and 100 (no
environment overrides in the modelled deployment).
-/

open Sectionizer

def chunkSize : Nat := 800

def chunkOverlap : Nat := 100

/-- `_is_heading` (note: a different, smaller pattern list than the
sectionizer\x27s `_detect_heading`), all patterns via `re.match`. -/
def isHeadingDP (line : List Char) : Bool :=
  -- ^(#{1,6})\s+
  (let hashes := (line.takeWhile (fun c => c = '#')).length
   decide (1 ≤ hashes ∧ hashes ≤ 6) &&
     decide (1 ≤ countWs (line.drop hashes))) ||
  -- ^(\*\*[^*]+\*\*)$
  (boldInner line).isSome ||
  -- ^([A-Z][A-Z\s]+:?)$ : first char upper, then at least one
  -- upper-or-whitespace char, optionally a final colon
  (match line with
   | a :: rest =>
     a.isUpper &&
       ((decide (1 ≤ rest.length) &&
          rest.all (fun c => c.isUpper || wsChar c)) ||
        (endsWith rest ':' && decide (1 ≤ rest.dropLast.length) &&
          rest.dropLast.all (fun c => c.isUpper || wsChar c)))
   | [] => false) ||
  -- ^(\d+\.\s+)
  (let d := Gate.digitRun line
   decide (1 ≤ d) && ((line.drop d).head? == some '.') &&
     decide (1 ≤ countWs (line.drop (d + 1)))) ||
  -- ^([A-Z]\.\s+)
  (match line with
   | a :: '.' :: rest => a.isUpper && decide (1 ≤ countWs rest)
   | _ => false)

/-- `_should_create_chunk`: size limit first, then whether the next line is
a heading; at the last line the `all_lines[current_line + 1]` lookup raises
`IndexError`, which the handler turns into `False`. -/
def shouldCreateChunk (current : List (List Char)) (currentLine : Nat)
    (allLines : List (List Char)) : Bool :=
  if chunkSize ≤ (joinWith (str "\n") current).length then true
  else
    match allLines.get? (currentLine + 1) with
    | some next => isHeadingDP (stripWs next)
    | none => false

/-- `_get_overlap_lines`, returning (content, line_numbers, start_line). -/
def getOverlapLines (current : List (List Char)) (nums : List Nat) :
    List (List Char) × List Nat × Nat :=
  if current.length ≤ chunkOverlap then (current, nums, nums.headD 0)
  else
    let oc := current.drop (current.length - chunkOverlap)
    let onums := nums.drop (nums.length - chunkOverlap)
    (oc, onums, onums.headD 0)

/-- Lookup in the dict built by `_create_section_line_map`: a line maps to
the last listed section covering it (later dict writes win), provided the
line number is below the total. -/
def sectionAtLine (sections : List Section) (total : Nat) (n : Nat) :
    Option Section :=
  sections.foldl
    (fun acc s =>
      if s.start_line ≤ n ∧ n ≤ s.end_line ∧ n < total then some s else acc)
    none

/-- The dedup key of `_get_chunk_sections`
(`f"{section.title}_{section.start_line}_{section.end_line}"`). -/
def secKey (s : Section) : List Char :=
  s.title ++ str "_" ++ natStr s.start_line ++ str "_" ++ natStr s.end_line

/-- `_get_chunk_sections`: the sections covering the chunk\x27s line numbers,
in first-seen order, deduplicated by `secKey`. -/
def chunkSectionsGo (sections : List Section) (total : Nat) :
    List Nat → List (List Char) → List Section
  | [], _ => []
  | n :: rest, seen =>
    match sectionAtLine sections total n with
    | some s =>
      if seen.contains (secKey s) then chunkSectionsGo sections total rest seen
      else s :: chunkSectionsGo sections total rest (secKey s :: seen)
    | none => chunkSectionsGo sections total rest seen

def chunkSectionsOf (lineNumbers : List Nat) (sections : List Section)
    (total : Nat) : List Section :=
  chunkSectionsGo sections total lineNumbers []

/-- Insertion-ordered counting dict (`section_type_counts`). -/
def bumpCount (k : List Char) : List (List Char × Nat) →
    List (List Char × Nat)
  | [] => [(k, 1)]
  | (k2, n) :: rest =>
    if k2 = k then (k2, n + 1) :: rest else (k2, n) :: bumpCount k rest

def typeCounts (ss : List Section) : List (List Char × Nat) :=
  ss.foldl (fun acc s => bumpCount s.section_type acc) []

/-- Python `max(items, key=lambda x: x[1])[0]`: the first key of maximal
count. -/
def maxByCountGo (k : List Char) (n : Nat) : List (List Char × Nat) →
    List Char
  | [] => k
  | (k2, n2) :: rest =>
    if n < n2 then maxByCountGo k2 n2 rest else maxByCountGo k n rest

def maxByCount : List (List Char × Nat) → List Char
  | [] => []
  | (k, n) :: rest => maxByCountGo k n rest

/-- `_get_primary_section`. -/
def primarySectionOf : List Section → Option Section
  | [] => none
  | [s] => some s
  | ss =>
    let most := maxByCount (typeCounts ss)
    match ss.find? (fun s => decide (s.section_type = most)) with
    | some s => some s
    | none => ss.head?

/-- A generated chunk.  The metadata dict of `_create_chunk_data` repeats
`filename`/`chunk_id`/`start_line`/`end_line` and adds statistics derived
from fields modelled here; `section_info.primary_type`/`primary_hpath` are
projections of `primarySection`. -/
structure ChunkData where
  id : List Char
  content : List Char
  start_line : Nat
  end_line : Nat
  chunkSections : List Section
  primarySection : Option Section
deriving DecidableEq

/-- `_create_chunk_data` (`chunk_id = f"{filename}_{start_line}_{end_line}"`;
no content hash). -/
def createChunkData (chunkLines : List (List Char)) (lineNumbers : List Nat)
    (startLine endLine : Nat) (sections : List Section) (total : Nat)
    (filename : List Char) : ChunkData :=
  let secs := chunkSectionsOf lineNumbers sections total
  { id := filename ++ str "_" ++ natStr startLine ++ str "_" ++ natStr endLine,
    content := joinWith (str "\n") chunkLines,
    start_line := startLine,
    end_line := endLine,
    chunkSections := secs,
    primarySection := primarySectionOf secs }

/-- The loop of `_generate_chunks_with_sections`, over the enumerated
remaining lines, carrying the current chunk\x27s lines, their numbers, and the
chunk start line. -/
def genChunksGo (filename : List Char) (sections : List Section)
    (lines : List (List Char)) (total : Nat) :
    List (List Char × Nat) → List (List Char) → List Nat → Nat →
    List ChunkData
  | [], current, nums, chunkStart =>
    if current.isEmpty then []
    else [createChunkData current nums chunkStart (total - 1) sections total
            filename]
  | (line, n) :: rest, current, nums, chunkStart =>
    let current2 := current ++ [line]
    let nums2 := nums ++ [n]
    if shouldCreateChunk current2 n lines then
      let cd := createChunkData current2 nums2 chunkStart n sections total
        filename
      let ov := getOverlapLines current2 nums2
      cd :: genChunksGo filename sections lines total rest ov.1 ov.2.1 ov.2.2
    else genChunksGo filename sections lines total rest current2 nums2
      chunkStart

/-- `_generate_chunks_with_sections`. -/
def generateChunks (content : List Char) (sections : List Section)
    (filename : List Char) : List ChunkData :=
  let lines := splitNl content
  genChunksGo filename sections lines lines.length (enumFrom 0 lines) [] [] 0

/-- The chunk list of `process_document` (its dict also returns the sections
and summary counts alongside). -/
def processChunks (filename content : List Char) : List ChunkData :=
  generateChunks content (detectSections content) filename

/-- A document made of `n` heading-free preamble lines followed by a
markdown heading and one body line. -/
def cexDoc (n : Nat) : List Char :=
  joinWith (str "\n") (List.replicate n (str "z") ++ [str "# T", str "body"])

end DocProcessor

section GateTheorems

open Gate Rag

/-- C1: `check_answer_quality` passes the gate exactly when the computed
quality score is ≥ 0 and the issues list is empty; the score starts at 0
and is decremented by 2 when any banned generic phrase matches and by 1
for each of: actionable-bullet count below 3, evidence score below 2,
distinct-citation-file count below 2. -/
theorem check_answer_quality_pass_iff (answer : List Char)
    (citations : List (List Char)) (diag : Option (List (List Char))) :
    ((checkAnswerQuality answer citations diag).passes_gate = true ↔
      (0 ≤ (checkAnswerQuality answer citations diag).quality_score ∧
        (checkAnswerQuality answer citations diag).issues = [])) ∧
    (checkAnswerQuality answer citations diag).quality_score =
      (if (foundPhrases answer).isEmpty then 0 else -2) +
      (if countActionableBullets answer < 3 then -1 else 0) +
      (if evidenceScore citations diag < 2 then -1 else 0) +
      (if distinctFiles citations < 2 then -1 else 0) := by
  constructor
  · simp only [checkAnswerQuality, Bool.and_eq_true, decide_eq_true_eq,
      List.isEmpty_iff]
  · rfl

/-- `isSubList` agrees with Mathlib's infix relation. -/
theorem isSubList_infix_iff (pat cs : List Char) :
    isSubList pat cs = true ↔ pat <:+: cs := by
  induction cs with
  | nil =>
    simp only [isSubList, findSub, List.isEmpty_iff, Option.isSome]
    constructor
    · intro h
      split at h
      · simp_all [List.infix_refl]
      · simp at h
    · intro h
      have : pat = [] := List.eq_nil_of_infix_nil h
      simp [this]
  | cons c rest ih =>
    simp only [isSubList, findSub] at *
    constructor
    · intro h
      split at h
      · next hp =>
        exact (List.isPrefixOf_iff_prefix.mp hp).isInfix
      · next hp =>
        have : (findSub pat rest).isSome := by
          cases hfs : findSub pat rest <;> simp [hfs] at h ⊢
        exact List.infix_cons (ih.mp this)
    · intro h
      rcases List.infix_cons_iff.mp h with h1 | h2
      · have hp : pat.isPrefixOf (c :: rest) = true :=
          List.isPrefixOf_iff_prefix.mpr h1
        simp [hp]
      · have := ih.mpr h2
        split
        · simp
        · cases hfs : findSub pat rest <;> simp [hfs] at this ⊢

theorem infix_append_right {l s : List Char} (t : List Char) (h : l <:+: s) :
    l <:+: s ++ t := h.trans ⟨[], t, by simp⟩

theorem infix_append_left (t : List Char) {l s : List Char} (h : l <:+: s) :
    l <:+: t ++ s := by
  obtain ⟨u, v, rfl⟩ := h
  exact ⟨t ++ u, v, by simp⟩

/-- Every member of the joined list occurs in the join. -/
theorem mem_joinWith_infix (sep : List Char) :
    ∀ (xs : List (List Char)) (x : List Char), x ∈ xs → x <:+: joinWith sep xs := by
  intro xs
  induction xs with
  | nil => simp
  | cons y ys ih =>
    intro x hx
    cases ys with
    | nil =>
      simp only [List.mem_singleton] at hx
      subst hx
      simp [joinWith]
    | cons z zs =>
      rcases List.mem_cons.mp hx with rfl | hmem
      · exact ⟨[], sep ++ joinWith sep (z :: zs), by simp [joinWith]⟩
      · have := ih x hmem
        simpa [joinWith, List.append_assoc] using
          infix_append_left (y ++ sep) this

/-- A failing gate check always has at least one deficient category. -/
theorem gate_fail_deficient (answer : List Char) (citations : List (List Char))
    (diag : Option (List (List Char)))
    (h : (checkAnswerQuality answer citations diag).passes_gate = false) :
    countActionableBullets answer < 3 ∨ evidenceScore citations diag < 2 ∨
      distinctFiles citations < 2 ∨ (foundPhrases answer).isEmpty = false := by
  by_contra hc
  push_neg at hc
  obtain ⟨hb, he, hf, hg⟩ := hc
  have hg2 : (foundPhrases answer).isEmpty = true := by simpa using hg
  have hb2 : ¬ countActionableBullets answer < 3 := Nat.not_lt.mpr hb
  have he2 : ¬ evidenceScore citations diag < 2 := Nat.not_lt.mpr he
  have hf2 : ¬ distinctFiles citations < 2 := Nat.not_lt.mpr hf
  simp [checkAnswerQuality, hg2, hb2, he2, hf2] at h

theorem msgD_split : msgD = str "/3 required" ++ str "\n" := by decide

theorem msgF_split : msgF = str "/2 required" ++ str "  \n" := by decide

theorem msgH_split : msgH = str "/2 required" ++ str "\n\nUpload the missing documentation to receive a specific, cited response instead of generic guidance." := by decide

/-- On any deficiency, `_generate_missing_context_message` produces the
itemized template (never the generic fallback text). -/
theorem genMissingContext_itemized (issues : List (List Char)) (b e f : Nat)
    (hd : b < 3 ∨ e < 2 ∨ f < 2 ∨
      issues.any (fun s => isSubList (str "generic phrases") s) = true) :
    genMissingContext issues b e f =
      msgA ++
        joinWith (str ", ")
          ((if b < 3 then [str "**First Response/Diagnostics**"] else []) ++
           (if e < 2 then [str "**Detailed Diagnostics**"] else []) ++
           (if f < 2 then [str "**Remediation/Fix Procedures**"] else []) ++
           (if issues.any (fun s => isSubList (str "generic phrases") s)
              then [str "**Specific Action Steps**"] else [])) ++ msgB ++
        msgC ++ natStr b ++ msgD ++ msgE ++ natStr e ++ msgF ++
        msgG ++ natStr f ++ msgH := by
  have hne : ((if b < 3 then [str "**First Response/Diagnostics**"] else []) ++
      (if e < 2 then [str "**Detailed Diagnostics**"] else []) ++
      (if f < 2 then [str "**Remediation/Fix Procedures**"] else []) ++
      (if issues.any (fun s => isSubList (str "generic phrases") s)
         then [str "**Specific Action Steps**"] else [])) ≠ [] := by
    rcases hd with h1 | h1 | h1 | h1 <;> simp [h1]
  simp only [genMissingContext]
  rw [if_neg (by simpa [List.isEmpty_iff] using hne)]

theorem msgA_split : msgA = str "**Missing Context Detected**" ++ str "\n\nYour question requires more specific information than what\x27s currently available in the knowledge base. \n\n**Missing Sections:** " := by decide

/-- When a banned phrase was found, the issues list contains the
generic-phrases issue. -/
theorem generic_issue_scan (answer : List Char) (citations : List (List Char))
    (diag : Option (List (List Char)))
    (hg : (foundPhrases answer).isEmpty = false) :
    (checkAnswerQuality answer citations diag).issues.any
      (fun s => isSubList (str "generic phrases") s) = true := by
  have hsub : isSubList (str "generic phrases")
      (str "Contains generic phrases: " ++
        joinWith (str ", ") (foundPhrases answer)) = true := by
    rw [isSubList_infix_iff]
    exact infix_append_right _
      ((isSubList_infix_iff _ _).mp (by decide))
  simp [checkAnswerQuality, hg, hsub]

/-- C6: when the quality check fails, `enforce_gate` returns
`passed = false` with the structured missing-context message in place of
the answer; the message starts with the missing-context banner, itemizes
each deficient category, and states the numeric shortfall against each
threshold (`X/3` bullets, `Y/2` evidence, `Z/2` distinct files); and the
caller's final response assembly then carries empty citations, confidence
0, and no diagnostics. -/
theorem enforce_gate_failure (answer : List Char) (citations : List (List Char))
    (diag : Option (List (List Char)))
    (h : (checkAnswerQuality answer citations diag).passes_gate = false) :
    ∃ m,
      enforceGate answer citations diag =
        (false, m, checkAnswerQuality answer citations diag) ∧
      (checkAnswerQuality answer citations diag).missing_context = some m ∧
      m = genMissingContext (checkAnswerQuality answer citations diag).issues
            (countActionableBullets answer) (evidenceScore citations diag)
            (distinctFiles citations) ∧
      (str "**Missing Context Detected**") <+: m ∧
      (str "- Actionable bullets: " ++ natStr (countActionableBullets answer) ++
        str "/3 required") <:+: m ∧
      (str "- Evidence score: " ++ natStr (evidenceScore citations diag) ++
        str "/2 required") <:+: m ∧
      (str "- Distinct files: " ++ natStr (distinctFiles citations) ++
        str "/2 required") <:+: m ∧
      (countActionableBullets answer < 3 →
        (str "**First Response/Diagnostics**") <:+: m) ∧
      (evidenceScore citations diag < 2 →
        (str "**Detailed Diagnostics**") <:+: m) ∧
      (distinctFiles citations < 2 →
        (str "**Remediation/Fix Procedures**") <:+: m) ∧
      ((foundPhrases answer).isEmpty = false →
        (str "**Specific Action Steps**") <:+: m) ∧
      ∀ fa fc conf dg,
        buildRagResponse false fa fc conf dg =
          { answer := fa, citations := [], confidence := 0,
            diagnostics := none, gate_passed := false } := by
  have hpf := h
  dsimp only [checkAnswerQuality] at hpf
  have hmc : (checkAnswerQuality answer citations diag).missing_context =
      some (genMissingContext (checkAnswerQuality answer citations diag).issues
        (countActionableBullets answer) (evidenceScore citations diag)
        (distinctFiles citations)) := by
    dsimp only [checkAnswerQuality]
    rw [if_neg (by rw [hpf]; simp)]
  have hd : countActionableBullets answer < 3 ∨
      evidenceScore citations diag < 2 ∨ distinctFiles citations < 2 ∨
      (checkAnswerQuality answer citations diag).issues.any
        (fun s => isSubList (str "generic phrases") s) = true := by
    rcases gate_fail_deficient answer citations diag h with h1 | h1 | h1 | h1
    · exact Or.inl h1
    · exact Or.inr (Or.inl h1)
    · exact Or.inr (Or.inr (Or.inl h1))
    · exact Or.inr (Or.inr (Or.inr (generic_issue_scan answer citations diag h1)))
  set issuesR := (checkAnswerQuality answer citations diag).issues with hIs
  set B := countActionableBullets answer with hBdef
  set E := evidenceScore citations diag with hEdef
  set F := distinctFiles citations with hFdef
  set m := genMissingContext issuesR B E F with hmdef
  have hitem := genMissingContext_itemized issuesR B E F hd
  set J := joinWith (str ", ")
    ((if B < 3 then [str "**First Response/Diagnostics**"] else []) ++
     (if E < 2 then [str "**Detailed Diagnostics**"] else []) ++
     (if F < 2 then [str "**Remediation/Fix Procedures**"] else []) ++
     (if issuesR.any (fun s => isSubList (str "generic phrases") s)
        then [str "**Specific Action Steps**"] else [])) with hJdef
  have hm' : m = msgA ++ (J ++ (msgB ++ (msgC ++ (natStr B ++ (msgD ++
      (msgE ++ (natStr E ++ (msgF ++ (msgG ++ (natStr F ++ msgH)))))))))) := by
    rw [hmdef, hitem]
    simp [List.append_assoc]
  refine ⟨m, ?_, hmc, hmdef, ?_, ?_, ?_, ?_, ?_, ?_, ?_, ?_, ?_⟩
  · simp [enforceGate, h, hmc]
  · refine ⟨str "\n\nYour question requires more specific information than what\x27s currently available in the knowledge base. \n\n**Missing Sections:** " ++
      (J ++ (msgB ++ (msgC ++ (natStr B ++ (msgD ++ (msgE ++ (natStr E ++
        (msgF ++ (msgG ++ (natStr F ++ msgH)))))))))), ?_⟩
    rw [hm', msgA_split]
    simp [List.append_assoc]
  · refine ⟨msgA ++ (J ++ msgB),
      str "\n" ++ (msgE ++ (natStr E ++ (msgF ++ (msgG ++ (natStr F ++ msgH))))), ?_⟩
    rw [hm']
    simp [msgC, msgD_split, List.append_assoc]
  · refine ⟨msgA ++ (J ++ (msgB ++ (msgC ++ (natStr B ++ msgD)))),
      str "  \n" ++ (msgG ++ (natStr F ++ msgH)), ?_⟩
    rw [hm']
    simp [msgE, msgF_split, List.append_assoc]
  · refine ⟨msgA ++ (J ++ (msgB ++ (msgC ++ (natStr B ++ (msgD ++
      (msgE ++ (natStr E ++ msgF))))))),
      str "\n\nUpload the missing documentation to receive a specific, cited response instead of generic guidance.", ?_⟩
    rw [hm']
    simp [msgG, msgH_split, List.append_assoc]
  · intro hb
    have hmem : str "**First Response/Diagnostics**" <:+: J := by
      rw [hJdef]
      exact mem_joinWith_infix _ _ _ (by simp [hb])
    rw [hm']
    exact infix_append_left msgA (infix_append_right _ hmem)
  · intro he
    have hmem : str "**Detailed Diagnostics**" <:+: J := by
      rw [hJdef]
      exact mem_joinWith_infix _ _ _ (by simp [he])
    rw [hm']
    exact infix_append_left msgA (infix_append_right _ hmem)
  · intro hf
    have hmem : str "**Remediation/Fix Procedures**" <:+: J := by
      rw [hJdef]
      exact mem_joinWith_infix _ _ _ (by simp [hf])
    rw [hm']
    exact infix_append_left msgA (infix_append_right _ hmem)
  · intro hg
    have hany : issuesR.any (fun s => isSubList (str "generic phrases") s) = true := by
      rw [hIs]
      exact generic_issue_scan answer citations diag hg
    have hmem : str "**Specific Action Steps**" <:+: J := by
      rw [hJdef]
      exact mem_joinWith_infix _ _ _ (by simp [hany])
    rw [hm']
    exact infix_append_left msgA (infix_append_right _ hmem)
  · intro fa fc conf dg
    simp [buildRagResponse]

/-- Witness for C6 at a concrete failing input. -/
theorem enforce_gate_failure_witness :
    (checkAnswerQuality (str "x") [] none).passes_gate = false ∧
    ∃ m, enforceGate (str "x") [] none =
      (false, m, checkAnswerQuality (str "x") [] none) := by
  have h : (checkAnswerQuality (str "x") [] none).passes_gate = false := by decide
  obtain ⟨m, h1, -⟩ := enforce_gate_failure (str "x") [] none h
  exact ⟨h, m, h1⟩

end GateTheorems

section GateMonotone

open Gate

/-- Appending text never removes bullet-pattern matches. -/
theorem countBullets_append_le (X Y : List Char) :
    countBullets X ≤ countBullets (X ++ Y) := by
  induction X with
  | nil => simp [countBullets]
  | cons a X' ih =>
    cases X' with
    | nil => simp [countBullets]
    | cons b rest =>
      simp only [countBullets, List.cons_append]
      exact Nat.add_le_add_left ih _

/-- A digit run that stops inside `X` is unchanged by appending. -/
theorem digitRun_append_of_stop (X Y : List Char) (h : digitRun X < X.length) :
    digitRun (X ++ Y) = digitRun X := by
  induction X with
  | nil => simp [digitRun] at h
  | cons c rest ih =>
    simp only [digitRun, List.cons_append] at h ⊢
    by_cases hc : c.isDigit
    · simp only [hc, if_true, List.append_eq] at h ⊢
      simp only [List.length_cons, Nat.add_lt_add_iff_right] at h
      rw [ih h]
    · simp [hc]

/-- A numbered-list match is preserved by appending text. -/
theorem numberedAt_append (Z Y : List Char) (h : numberedAt Z = true) :
    numberedAt (Z ++ Y) = true := by
  simp only [numberedAt, Bool.and_eq_true, decide_eq_true_eq] at h
  obtain ⟨hk, hm⟩ := h
  rcases hdrop : Z.drop (digitRun Z) with _ | ⟨c1, tail⟩
  · rw [hdrop] at hm; simp [dotWs] at hm
  rcases tail with _ | ⟨c2, r⟩
  · rw [hdrop] at hm; simp [dotWs] at hm
  have hlt : digitRun Z < Z.length := by
    have := congrArg List.length hdrop
    simp only [List.length_drop, List.length_cons] at this
    omega
  have hrun : digitRun (Z ++ Y) = digitRun Z := digitRun_append_of_stop Z Y hlt
  have hdrop2 : (Z ++ Y).drop (digitRun Z) = c1 :: c2 :: (r ++ Y) := by
    rw [List.drop_append_of_le_length (Nat.le_of_lt hlt), hdrop]
    simp
  rw [hdrop] at hm
  simp only [numberedAt, Bool.and_eq_true, decide_eq_true_eq, hrun, hdrop2]
  exact ⟨hk, by simpa [dotWs] using hm⟩

/-- Appending text never removes numbered-list matches. -/
theorem countNumberedGo_append_le (X : List Char) :
    ∀ (b : Bool) (Y : List Char),
      countNumberedGo b X ≤ countNumberedGo b (X ++ Y) := by
  induction X with
  | nil => intro b Y; simp [countNumberedGo]
  | cons c rest ih =>
    intro b Y
    simp only [countNumberedGo, List.cons_append]
    refine Nat.add_le_add ?_ (ih c.isDigit Y)
    by_cases hind : (!b && c.isDigit && numberedAt (c :: rest)) = true
    · simp only [Bool.and_eq_true] at hind
      obtain ⟨⟨hb, hc⟩, hn⟩ := hind
      have : numberedAt (c :: (rest ++ Y)) = true := by
        have := numberedAt_append (c :: rest) Y hn
        simpa using this
      simp [hb, hc, hn, this]
    · simp only [Bool.not_eq_true] at hind
      simp [hind]

theorem countNumbered_append_le (X Y : List Char) :
    countNumbered X ≤ countNumbered (X ++ Y) :=
  countNumberedGo_append_le X false Y

/-- A successful `findSub` yields a literal match inside the string. -/
theorem findSub_some_spec (pat : List Char) :
    ∀ (X : List Char) (i : Nat), findSub pat X = some i →
      pat.isPrefixOf (X.drop i) = true ∧ i + pat.length ≤ X.length := by
  intro X
  induction X with
  | nil =>
    intro i h
    simp only [findSub] at h
    split at h
    · next hp =>
      simp only [Option.some.injEq] at h
      subst h
      simp_all [List.isEmpty_iff, List.isPrefixOf]
    · simp at h
  | cons c rest ih =>
    intro i h
    simp only [findSub] at h
    split at h
    · next hp =>
      simp only [Option.some.injEq] at h
      subst h
      refine ⟨hp, ?_⟩
      have := (List.isPrefixOf_iff_prefix.mp hp).length_le
      simpa using this
    · next hp =>
      rcases hfs : findSub pat rest with _ | j
      · simp [hfs] at h
      · rw [hfs] at h
        simp at h
        subst h
        obtain ⟨h1, h2⟩ := ih j hfs
        refine ⟨by simpa using h1, ?_⟩
        simp only [List.length_cons]
        omega

/-- The last element of a nonempty list is a member. -/
theorem getLast?_mem_list {α : Type} {l : List α} {a : α}
    (h : l.getLast? = some a) : a ∈ l := by
  have hx : a ∈ l.getLast? := h
  obtain ⟨hne, rfl⟩ := List.mem_getLast?_eq_getLast hx
  exact List.getLast_mem hne

/-- If a pattern ending in `*` occurs nowhere without a `*`, `findSub`
finds nothing. -/
theorem findSub_none_of_no_star (pat : List Char) (hpn : pat ≠ [])
    (hpl : pat.getLast? = some '*') :
    ∀ (Y : List Char), '*' ∉ Y → findSub pat Y = none := by
  intro Y
  induction Y with
  | nil =>
    intro _
    simp [findSub, List.isEmpty_iff, hpn]
  | cons c rest ih =>
    intro hY
    simp only [findSub]
    have hp : ¬ pat.isPrefixOf (c :: rest) = true := by
      intro hp
      have hmem : '*' ∈ pat := getLast?_mem_list hpl
      have : '*' ∈ c :: rest :=
        (List.isPrefixOf_iff_prefix.mp hp).sublist.mem hmem
      exact hY this
    rw [if_neg hp, ih (fun hm => hY (List.mem_cons_of_mem c hm))]
    rfl

/-- A prefix of `Z ++ Y` longer than `Z` splits as `Z` plus a nonempty
prefix of `Y`. -/
theorem prefix_split_long {p Z Y : List Char} (h : p <+: Z ++ Y)
    (hlen : Z.length < p.length) :
    ∃ p2, p2 ≠ [] ∧ p = Z ++ p2 ∧ p2 <+: Y := by
  have hZp : Z <+: p :=
    List.prefix_of_prefix_length_le (List.prefix_append Z Y) h
      (Nat.le_of_lt hlen)
  obtain ⟨p2, rfl⟩ := hZp
  refine ⟨p2, ?_, rfl, ?_⟩
  · intro hnil
    subst hnil
    simp at hlen
  · obtain ⟨r, hr⟩ := h
    rw [List.append_assoc] at hr
    exact ⟨r, List.append_cancel_left hr⟩

/-- Appending star-free text does not change where a pattern ending in `*`
first occurs. -/
theorem findSub_append_star (pat : List Char) (hpn : pat ≠ [])
    (hpl : pat.getLast? = some '*') :
    ∀ (X Y : List Char), '*' ∉ Y → findSub pat (X ++ Y) = findSub pat X := by
  intro X
  induction X with
  | nil =>
    intro Y hY
    rw [List.nil_append, findSub_none_of_no_star pat hpn hpl Y hY]
    simp [findSub, List.isEmpty_iff, hpn]
  | cons c rest ih =>
    intro Y hY
    by_cases hp : pat.isPrefixOf (c :: rest) = true
    · have hp2 : pat.isPrefixOf (c :: (rest ++ Y)) = true := by
        rw [List.isPrefixOf_iff_prefix] at hp ⊢
        have := hp.trans (List.prefix_append (c :: rest) Y)
        simpa using this
      show findSub pat ((c :: rest) ++ Y) = findSub pat (c :: rest)
      simp only [List.cons_append, List.append_eq, findSub]
      rw [if_pos hp2, if_pos hp]
    · have hp2 : ¬ pat.isPrefixOf (c :: (rest ++ Y)) = true := by
        intro hpre
        have hpre' : pat <+: (c :: rest) ++ Y := by
          rw [List.isPrefixOf_iff_prefix] at hpre
          simpa using hpre
        by_cases hl : pat.length ≤ (c :: rest).length
        · exact hp (List.isPrefixOf_iff_prefix.mpr
            (List.prefix_of_prefix_length_le hpre'
              (List.prefix_append _ _) hl))
        · push_neg at hl
          obtain ⟨p2, hp2n, heq, hp2Y⟩ := prefix_split_long hpre' hl
          have hlast : p2.getLast? = some '*' := by
            have h3 : ((c :: rest) ++ p2).getLast? = some '*' := by
              rw [← heq]; exact hpl
            rwa [List.getLast?_append_of_ne_nil _ hp2n] at h3
          exact hY (hp2Y.sublist.mem (getLast?_mem_list hlast))
      show findSub pat ((c :: rest) ++ Y) = findSub pat (c :: rest)
      simp only [List.cons_append, List.append_eq, findSub]
      rw [if_neg hp2, if_neg hp, ih Y hY]

theorem lazyStop_le_length (X : List Char) : lazyStop X ≤ X.length := by
  induction X with
  | nil => simp [lazyStop]
  | cons c rest ih =>
    simp only [lazyStop, List.length_cons]
    split
    · omega
    · split
      · omega
      · omega

/-- Appending a nonempty star-free tail can only move the lazy stop of
`.*?(?=\*\*|$)` to the right. -/
theorem lazyStop_le_append (X : List Char) :
    ∀ (L : List Char), L ≠ [] → '*' ∉ L → lazyStop X ≤ lazyStop (X ++ L) := by
  induction X with
  | nil => intro L _ _; simp [lazyStop]
  | cons c rest ih =>
    intro L hL hstar
    show lazyStop (c :: rest) ≤ lazyStop (c :: (rest ++ L))
    simp only [lazyStop]
    by_cases h1 : c = '\n' ∧ rest = []
    · simp [h1]
    · rw [if_neg h1]
      by_cases h2 : c = '*' ∧ rest.head? = some '*'
      · rw [if_pos h2]
        exact Nat.zero_le _
      · rw [if_neg h2]
        have h1e : ¬ (c = '\n' ∧ rest ++ L = []) := by
          intro hcon
          exact hL (List.append_eq_nil.mp hcon.2).2
        rw [if_neg h1e]
        by_cases h2e : c = '*' ∧ (rest ++ L).head? = some '*'
        · rcases rest with _ | ⟨r0, rtail⟩
          · obtain ⟨-, hh⟩ := h2e
            simp only [List.nil_append] at hh
            have : '*' ∈ L := by
              rcases L with _ | ⟨l0, ltail⟩
              · simp at hh
              · simp at hh
                simp [hh]
            exact absurd this hstar
          · obtain ⟨hc, hh⟩ := h2e
            simp only [List.cons_append, List.head?_cons,
              Option.some.injEq] at hh
            exact absurd ⟨hc, by simp [hh]⟩ h2
        · rw [if_neg h2e]
          exact Nat.add_le_add_left (ih L hL hstar) 1

/-- A non-matching section header still does not match after a star-free
append. -/
theorem headerRegion_append_none (header low L : List Char)
    (hh : header ≠ []) (hhl : header.getLast? = some '*') (hstar : '*' ∉ L)
    (h : headerRegion header low = none) :
    headerRegion header (low ++ L) = none := by
  simp only [headerRegion] at h ⊢
  rw [findSub_append_star header hh hhl low L hstar]
  cases hfs : findSub header low with
  | none => simp
  | some i => rw [hfs] at h; simp at h

/-- A matching section region is only extended by a star-free append. -/
theorem headerRegion_append_some (header low L : List Char)
    (hh : header ≠ []) (hhl : header.getLast? = some '*')
    (hL : L ≠ []) (hstar : '*' ∉ L) (r : List Char)
    (h : headerRegion header low = some r) :
    ∃ ext, headerRegion header (low ++ L) = some (r ++ ext) := by
  simp only [headerRegion] at h ⊢
  rw [findSub_append_star header hh hhl low L hstar]
  cases hfs : findSub header low with
  | none => rw [hfs] at h; simp at h
  | some i =>
    rw [hfs] at h
    simp only [Option.some.injEq] at h
    obtain ⟨hpre, hlen⟩ := findSub_some_spec header low i hfs
    have hi : i ≤ low.length := le_trans (Nat.le_add_right i header.length) hlen
    have hlen2 : header.length ≤ (low.drop i).length := by
      simp only [List.length_drop]
      omega
    have hdrop : ((low ++ L).drop i).drop header.length =
        ((low.drop i).drop header.length) ++ L := by
      rw [List.drop_append_of_le_length hi, List.drop_append_of_le_length hlen2]
    set rest := (low.drop i).drop header.length with hrest
    have hjj : lazyStop rest ≤ lazyStop (rest ++ L) :=
      lazyStop_le_append rest L hL hstar
    have hjlen : lazyStop rest ≤ rest.length := lazyStop_le_length rest
    refine ⟨((rest ++ L).drop (lazyStop rest)).take
      (lazyStop (rest ++ L) - lazyStop rest), ?_⟩
    simp only [hdrop, ← hrest]
    rw [show lazyStop (rest ++ L) =
      lazyStop rest + (lazyStop (rest ++ L) - lazyStop rest) by omega]
    rw [List.take_add, List.take_append_of_le_length hjlen]
    rw [← h]
    simp [List.append_assoc]

/-- `firstRegion` after a star-free append: no region stays no region, and
a matched region is only extended. -/
theorem firstRegion_append (hs : List (List Char)) (low L : List Char)
    (hall : ∀ h ∈ hs, h ≠ [] ∧ h.getLast? = some '*')
    (hL : L ≠ []) (hstar : '*' ∉ L) :
    (firstRegion hs low = none ∧ firstRegion hs (low ++ L) = none) ∨
    (∃ r ext, firstRegion hs low = some r ∧
      firstRegion hs (low ++ L) = some (r ++ ext)) := by
  induction hs with
  | nil => left; simp [firstRegion]
  | cons h0 hs ih =>
    obtain ⟨hh, hhl⟩ := hall h0 (List.mem_cons_self h0 hs)
    cases hr : headerRegion h0 low with
    | some r =>
      obtain ⟨ext, he⟩ :=
        headerRegion_append_some h0 low L hh hhl hL hstar r hr
      right
      exact ⟨r, ext, by simp [firstRegion, hr], by simp [firstRegion, he]⟩
    | none =>
      have hnone : headerRegion h0 (low ++ L) = none :=
        headerRegion_append_none h0 low L hh hhl hstar hr
      rcases ih (fun h hm => hall h (List.mem_cons_of_mem h0 hm)) with
        ⟨h1, h2⟩ | ⟨r, ext, h1, h2⟩
      · left
        exact ⟨by simp [firstRegion, hr, h1], by simp [firstRegion, hnone, h2]⟩
      · right
        exact ⟨r, ext, by simp [firstRegion, hr, h1],
          by simp [firstRegion, hnone, h2]⟩

theorem regionCount_append_le (hs : List (List Char)) (low L : List Char)
    (hall : ∀ h ∈ hs, h ≠ [] ∧ h.getLast? = some '*')
    (hL : L ≠ []) (hstar : '*' ∉ L) :
    regionCount hs low ≤ regionCount hs (low ++ L) := by
  rcases firstRegion_append hs low L hall hL hstar with
    ⟨h1, h2⟩ | ⟨r, ext, h1, h2⟩
  · simp [regionCount, h1, h2]
  · simp only [regionCount, h1, h2]
    exact countBullets_append_le r ext

/-- `Char.toLower` only maps `*` to `*`. -/
theorem toLower_eq_star {c : Char} (h : c.toLower = '*') : c = '*' := by
  unfold Char.toLower at h
  dsimp only at h
  split at h
  · next hc =>
    exfalso
    obtain ⟨h1, h2⟩ := hc
    set n := c.toNat with hn
    interval_cases n <;> exact absurd h (by decide)
  · exact h

theorem star_not_mem_lower {L : List Char} (h : '*' ∉ L) : '*' ∉ lowerL L := by
  intro hmem
  simp only [lowerL, List.mem_map] at hmem
  obtain ⟨c, hc, hlow⟩ := hmem
  exact h (toLower_eq_star hlow ▸ hc)

/-- Appending a star-free bullet line `"\n- t"` cannot push the actionable
bullet count below the gate threshold. -/
theorem countActionableBullets_threshold (A t : List Char) (hstar : '*' ∉ t)
    (h3 : 3 ≤ countActionableBullets A) :
    3 ≤ countActionableBullets (A ++ (str "\n- " ++ t)) := by
  set L := str "\n- " ++ t with hLdef
  have hLne : lowerL L ≠ [] := by simp [lowerL, L, str]
  have hLstar : '*' ∉ L := by
    intro hmem
    rw [hLdef] at hmem
    rcases List.mem_append.mp hmem with hm | hm
    · simp [str] at hm
    · exact hstar hm
  have hlowstar : '*' ∉ lowerL L := star_not_mem_lower hLstar
  have hlow : lowerL (A ++ L) = lowerL A ++ lowerL L := List.map_append _ A L
  have hc1 := regionCount_append_le firstChecksHeaders (lowerL A) (lowerL L)
    (by decide) hLne hlowstar
  have hc2 := regionCount_append_le fixHeaders (lowerL A) (lowerL L)
    (by decide) hLne hlowstar
  have hnum := countNumbered_append_le A L
  have hball := countBullets_append_le A L
  simp only [countActionableBullets, hlow] at h3 ⊢
  by_cases hb2 : regionCount firstChecksHeaders (lowerL A ++ lowerL L) +
      regionCount fixHeaders (lowerL A ++ lowerL L) + countNumbered (A ++ L) < 3
  · rw [if_pos hb2]
    have hbase : regionCount firstChecksHeaders (lowerL A) +
        regionCount fixHeaders (lowerL A) + countNumbered A < 3 := by omega
    rw [if_pos hbase] at h3
    exact le_trans h3 hball
  · rw [if_neg hb2]
    omega

/-- Adding a citation never lowers the evidence score. -/
theorem evidenceScore_append_le (citations : List (List Char)) (c : List Char)
    (diag : Option (List (List Char))) :
    evidenceScore citations diag ≤ evidenceScore (citations ++ [c]) diag := by
  have hbase : (if citations.isEmpty then 0 else min citations.length 3) ≤
      (if (citations ++ [c]).isEmpty then 0
       else min (citations ++ [c]).length 3) := by
    have hne : ((citations ++ [c]).isEmpty) = false := by simp
    by_cases hc : citations.isEmpty
    · simp [hc, hne]
    · simp only [hc, hne, if_false, Bool.false_eq_true]
      simp only [List.length_append, List.length_cons, List.length_nil]
      omega
  simp only [evidenceScore]
  cases diag with
  | none => exact hbase
  | some keys =>
    by_cases hk : keys.isEmpty
    · simp only [hk, if_true]
      exact hbase
    · simp only [hk, if_false]
      exact Nat.add_le_add (Nat.add_le_add hbase (le_refl _)) (le_refl _)

/-- Adding a citation of a new distinct file increments the distinct-file
count by exactly one. -/
theorem distinctFiles_append_new (citations : List (List Char)) (c : List Char)
    (h : citationFile c ∉ citations.map citationFile) :
    distinctFiles (citations ++ [c]) = distinctFiles citations + 1 := by
  have hded : ((citations ++ [c]).map citationFile).dedup.length =
      (citations.map citationFile).dedup.length + 1 := by
    rw [List.map_append, ← List.card_toFinset, ← List.card_toFinset,
      List.toFinset_append]
    simp only [List.map_cons, List.map_nil, List.toFinset_cons, List.toFinset_nil,
      insert_emptyc_eq]
    rw [Finset.union_comm, ← Finset.insert_eq,
      Finset.card_insert_of_not_mem (by simpa [List.mem_toFinset] using h)]
  simp only [distinctFiles]
  rw [if_neg (by simp [List.isEmpty_iff])]
  by_cases hc : citations.isEmpty
  · have : citations = [] := List.isEmpty_iff.mp hc
    subst this
    simp
  · rw [if_neg hc]
    exact hded

/-- C5 (amended): for a failing answer, (a) adding a citation that names a
new distinct file never flips a previously-satisfied check and never
decreases the quality score, and (b) appending a dash-bullet line whose
text contains no asterisk and introduces no banned-generic-phrase match
never flips a previously-satisfied check and never decreases the quality
score. -/
theorem gate_monotone_amended :
    (∀ (answer : List Char) (citations : List (List Char))
        (diag : Option (List (List Char))) (c : List Char),
      (checkAnswerQuality answer citations diag).passes_gate = false →
      citationFile c ∉ citations.map citationFile →
      ((checkAnswerQuality answer citations diag).quality_score ≤
          (checkAnswerQuality answer (citations ++ [c]) diag).quality_score ∧
        (2 ≤ evidenceScore citations diag →
          2 ≤ evidenceScore (citations ++ [c]) diag) ∧
        (2 ≤ distinctFiles citations → 2 ≤ distinctFiles (citations ++ [c])) ∧
        distinctFiles (citations ++ [c]) = distinctFiles citations + 1)) ∧
    (∀ (answer : List Char) (citations : List (List Char))
        (diag : Option (List (List Char))) (t : List Char),
      (checkAnswerQuality answer citations diag).passes_gate = false →
      '*' ∉ t →
      foundPhrases (answer ++ (str "\n- " ++ t)) = foundPhrases answer →
      ((checkAnswerQuality answer citations diag).quality_score ≤
          (checkAnswerQuality (answer ++ (str "\n- " ++ t)) citations
            diag).quality_score ∧
        (3 ≤ countActionableBullets answer →
          3 ≤ countActionableBullets (answer ++ (str "\n- " ++ t))) ∧
        ((foundPhrases answer).isEmpty = true →
          (foundPhrases (answer ++ (str "\n- " ++ t))).isEmpty = true))) := by
  constructor
  · intro answer citations diag c hfail hnew
    have he := evidenceScore_append_le citations c diag
    have hf := distinctFiles_append_new citations c hnew
    refine ⟨?_, fun h2 => le_trans h2 he, fun h2 => by omega, hf⟩
    dsimp only [checkAnswerQuality]
    split_ifs <;> omega
  · intro answer citations diag t hfail hstar hbp
    have hth := countActionableBullets_threshold answer t hstar
    refine ⟨?_, hth, fun hemp => by rw [hbp]; exact hemp⟩
    dsimp only [checkAnswerQuality]
    rw [hbp]
    by_cases hA : countActionableBullets answer < 3
    · split_ifs <;> omega
    · have h3 : ¬ countActionableBullets (answer ++ (str "\n- " ++ t)) < 3 := by
        have := hth (by omega)
        omega
      split_ifs <;> omega

/-- C5 counterexample: on a failing answer, appending the bullet line
`"\n- check the documentation"` flips the banned-phrase check from passing
to failing and lowers the quality score; and appending the bullet line
`"\n- **First checks:**zz"` flips the actionable-bullet check from passing
to failing and lowers the quality score. -/
theorem gate_monotone_cex :
    ((checkAnswerQuality (str "**First checks:**\n- a\n- b\n- c\n") []
        none).passes_gate = false ∧
      (foundPhrases (str "**First checks:**\n- a\n- b\n- c\n")).isEmpty = true ∧
      (foundPhrases (str "**First checks:**\n- a\n- b\n- c\n" ++
        (str "\n- " ++ str "check the documentation"))).isEmpty = false ∧
      (checkAnswerQuality (str "**First checks:**\n- a\n- b\n- c\n" ++
        (str "\n- " ++ str "check the documentation")) [] none).quality_score <
        (checkAnswerQuality (str "**First checks:**\n- a\n- b\n- c\n") []
          none).quality_score) ∧
    ((checkAnswerQuality (str "**Quick Check:**x- a\n1. b\n2. c") []
        none).passes_gate = false ∧
      3 ≤ countActionableBullets (str "**Quick Check:**x- a\n1. b\n2. c") ∧
      countActionableBullets (str "**Quick Check:**x- a\n1. b\n2. c" ++
        (str "\n- " ++ str "**First checks:**zz")) < 3 ∧
      (foundPhrases (str "**Quick Check:**x- a\n1. b\n2. c" ++
        (str "\n- " ++ str "**First checks:**zz"))).isEmpty = true ∧
      (checkAnswerQuality (str "**Quick Check:**x- a\n1. b\n2. c" ++
        (str "\n- " ++ str "**First checks:**zz")) [] none).quality_score <
        (checkAnswerQuality (str "**Quick Check:**x- a\n1. b\n2. c") []
          none).quality_score) := by decide

/-- Witness for the amended C5 at concrete inputs. -/
theorem gate_monotone_amended_witness :
    ((checkAnswerQuality (str "x") [] none).quality_score ≤
      (checkAnswerQuality (str "x") ([] ++ [str "a.md#1"]) none).quality_score) ∧
    ((checkAnswerQuality (str "y") [] none).quality_score ≤
      (checkAnswerQuality (str "y" ++ (str "\n- " ++ str "run diag")) []
        none).quality_score) := by
  constructor
  · exact (gate_monotone_amended.1 (str "x") [] none (str "a.md#1")
      (by decide) (by decide)).1
  · exact (gate_monotone_amended.2 (str "y") [] none (str "run diag")
      (by decide) (by decide) (by decide)).1

end GateMonotone

namespace Retrieval

theorem dictFind_of_mem {id : List Char} {e : MergeEntry}
    {m : List (List Char × MergeEntry)} (hmem : (id, e) ∈ m)
    (hkeys : (keys m).Nodup) : dictFind id m = some e := by
  induction m with
  | nil => simp at hmem
  | cons kv rest ih =>
    rcases List.mem_cons.mp hmem with heq | hmem2
    · subst heq
      simp [dictFind, List.find?]
    · by_cases hk : kv.1 = id
      · exfalso
        have : id ∈ keys rest := by
          simp only [keys, List.mem_map]
          exact ⟨(id, e), hmem2, rfl⟩
        simp only [keys, List.map_cons, List.nodup_cons] at hkeys
        exact hkeys.1 (hk ▸ this)
      · have hrest : dictFind id rest = some e := by
          apply ih hmem2
          simp only [keys, List.map_cons, List.nodup_cons] at hkeys
          exact hkeys.2
        simp only [dictFind, List.find?] at hrest ⊢
        rw [show (decide (kv.1 = id)) = false by simp [hk]]
        exact hrest

theorem dictFind_some_hasKey {id : List Char} {e : MergeEntry}
    {m : List (List Char × MergeEntry)} (h : dictFind id m = some e) :
    hasKey id m = true := by
  simp only [dictFind, Option.map_eq_some'] at h
  obtain ⟨kv, hfind, -⟩ := h
  have hmem := List.mem_of_find?_eq_some hfind
  have hcond := List.find?_some hfind
  simp only [decide_eq_true_eq] at hcond
  simp only [hasKey, List.any_eq_true]
  exact ⟨kv, hmem, by simp [hcond]⟩

theorem dictFind_none_hasKey {id : List Char}
    {m : List (List Char × MergeEntry)} (h : dictFind id m = none) :
    hasKey id m = false := by
  simp only [dictFind, Option.map_eq_none', List.find?_eq_none] at h
  simp only [hasKey, List.any_eq_false]
  intro p hp
  simpa using h p hp

theorem keys_dictSet_replace {id : List Char} {e : MergeEntry}
    {m : List (List Char × MergeEntry)} (h : hasKey id m = true) :
    keys (dictSet id e m) = keys m := by
  simp only [dictSet, h, if_true, keys, List.map_map]
  apply List.map_congr_left
  intro p _
  by_cases hp : p.1 = id
  · simp [hp]
  · simp [hp]

theorem bFind_eq_none_of_not_mem {b : List (RChunk × ℚ)} {id : List Char}
    (h : id ∉ b.filterMap (fun p => truthyId p.1)) : bFind b id = none := by
  rw [bFind, List.find?_eq_none]
  intro p hp
  simp only [decide_eq_true_eq]
  intro hcon
  exact h (List.mem_filterMap.mpr ⟨p, hp, by simp [hcon]⟩)

theorem addVector_closed (v : List (RChunk × ℚ)) :
    ∀ (m0 : List (List Char × MergeEntry)),
      (v.filterMap (fun p => truthyId p.1)).Nodup →
      (∀ id ∈ v.filterMap (fun p => truthyId p.1), hasKey id m0 = false) →
      addVector m0 v = m0 ++ vMap v := by
  induction v with
  | nil => intro m0 _ _; simp [addVector, vMap]
  | cons p rest ih =>
    intro m0 hv hdisj
    have hstep : addVector m0 (p :: rest) =
        addVector
          (match truthyId p.1 with
           | none => m0
           | some id => dictSet id ⟨p.1, p.2, 0, p.2 * (0.6 : ℚ)⟩ m0) rest := rfl
    cases hid : truthyId p.1 with
    | none =>
      rw [hstep]
      simp only [hid]
      have hfm : (p :: rest).filterMap (fun p => truthyId p.1) =
          rest.filterMap (fun p => truthyId p.1) := by
        simp [List.filterMap_cons, hid]
      rw [hfm] at hv
      rw [ih m0 hv (fun id hm => hdisj id (by rw [hfm]; exact hm))]
      simp [vMap, List.filterMap_cons, vEntry, hid]
    | some id =>
      have hfm : (p :: rest).filterMap (fun p => truthyId p.1) =
          id :: rest.filterMap (fun p => truthyId p.1) := by
        simp [List.filterMap_cons, hid]
      rw [hfm, List.nodup_cons] at hv
      have hk : hasKey id m0 = false := hdisj id (by rw [hfm]; simp)
      rw [hstep]
      simp only [hid]
      rw [show dictSet id ⟨p.1, p.2, 0, p.2 * (0.6 : ℚ)⟩ m0 =
          m0 ++ [(id, ⟨p.1, p.2, 0, p.2 * (0.6 : ℚ)⟩)] by
        simp [dictSet, hk]]
      have hdisj2 : ∀ id2 ∈ rest.filterMap (fun p => truthyId p.1),
          hasKey id2 (m0 ++ [(id, ⟨p.1, p.2, 0, p.2 * (0.6 : ℚ)⟩)]) = false := by
        intro id2 hm2
        have hne : id ≠ id2 := by
          intro hcon
          exact hv.1 (hcon ▸ hm2)
        have h0 := hdisj id2 (by rw [hfm]; exact List.mem_cons_of_mem _ hm2)
        simp only [hasKey, List.any_eq_false] at h0 ⊢
        intro q hq
        rcases List.mem_append.mp hq with hq1 | hq2
        · exact h0 q hq1
        · simp only [List.mem_singleton] at hq2
          subst hq2
          simp [hne]
      rw [ih _ hv.2 hdisj2]
      simp only [vMap, List.filterMap_cons, vEntry, hid, Option.map_some,
        List.append_assoc]
      rfl

theorem addBm25_closed (b : List (RChunk × ℚ)) :
    ∀ (m : List (List Char × MergeEntry)),
      (b.filterMap (fun p => truthyId p.1)).Nodup →
      (keys m).Nodup →
      addBm25 m b = m.map (updEntry b) ++ bNew b (keys m) := by
  induction b with
  | nil =>
    intro m _ _
    have hm : m.map (updEntry []) = m := by
      calc m.map (updEntry []) = m.map id :=
            List.map_congr_left (fun kv _ => by simp [updEntry, bFind])
        _ = m := List.map_id m
    simp [addBm25, bNew, hm]
  | cons q rest ih =>
    intro m hb hkeys
    have hstep : addBm25 m (q :: rest) =
        addBm25
          (match truthyId q.1 with
           | none => m
           | some id =>
             match dictFind id m with
             | some e =>
               dictSet id ⟨e.chunk, e.vector_score, q.2,
                 e.combined_score + q.2 * (0.4 : ℚ)⟩ m
             | none => dictSet id ⟨q.1, 0, q.2, q.2 * (0.4 : ℚ)⟩ m) rest := rfl
    cases hid : truthyId q.1 with
    | none =>
      rw [hstep]
      simp only [hid]
      have hfm : (q :: rest).filterMap (fun p => truthyId p.1) =
          rest.filterMap (fun p => truthyId p.1) := by
        simp [List.filterMap_cons, hid]
      rw [hfm] at hb
      rw [ih m hb hkeys]
      congr 1
      · apply List.map_congr_left
        intro kv _
        have hbf : bFind (q :: rest) kv.1 = bFind rest kv.1 := by
          simp [bFind, List.find?, hid]
        simp [updEntry, hbf]
      · simp [bNew, List.filterMap_cons, hid]
    | some id =>
      have hbfm : (q :: rest).filterMap (fun p => truthyId p.1) =
          id :: rest.filterMap (fun p => truthyId p.1) := by
        simp [List.filterMap_cons, hid]
      rw [hbfm, List.nodup_cons] at hb
      have hbrest : bFind rest id = none := bFind_eq_none_of_not_mem hb.1
      have hbhead : bFind (q :: rest) id = some q := by
        simp [bFind, List.find?, hid]
      have hbskip : ∀ id2, id2 ≠ id → bFind (q :: rest) id2 = bFind rest id2 := by
        intro id2 hne
        simp [bFind, List.find?, hid, Ne.symm hne]
      cases hfind : dictFind id m with
      | some e0 =>
        have hk : hasKey id m = true := dictFind_some_hasKey hfind
        have hidk : id ∈ keys m := by
          simp only [hasKey, List.any_eq_true, decide_eq_true_eq] at hk
          obtain ⟨kv2, hkv2, hcond⟩ := hk
          simp only [keys, List.mem_map]
          exact ⟨kv2, hkv2, hcond⟩
        rw [hstep]
        simp only [hid, hfind]
        have hkeys2 : keys (dictSet id
            ⟨e0.chunk, e0.vector_score, q.2,
              e0.combined_score + q.2 * (0.4 : ℚ)⟩ m) = keys m :=
          keys_dictSet_replace hk
        rw [ih _ hb.2 (by rw [hkeys2]; exact hkeys), hkeys2]
        congr 1
        · simp only [dictSet, hk, if_true, List.map_map]
          apply List.map_congr_left
          intro kv hkv
          obtain ⟨k1, e1⟩ := kv
          by_cases hkid : k1 = id
          · subst hkid
            have he1 : e1 = e0 := by
              have h5 : dictFind k1 m = some e1 := dictFind_of_mem hkv hkeys
              rw [hfind] at h5
              exact (Option.some.injEq _ _ ▸ h5).symm
            subst he1
            simp [updEntry, hbrest, hbhead]
          · simp [updEntry, hbskip k1 hkid, hkid]
        · have hnew : bNew (q :: rest) (keys m) = bNew rest (keys m) := by
            simp [bNew, List.filterMap_cons, hid, hidk]
          rw [hnew]
      | none =>
        have hk : hasKey id m = false := dictFind_none_hasKey hfind
        have hidk : id ∉ keys m := by
          simp only [hasKey, List.any_eq_false, decide_eq_true_eq] at hk
          simp only [keys, List.mem_map]
          rintro ⟨kv2, hkv2, hcond⟩
          exact hk kv2 hkv2 hcond
        rw [hstep]
        simp only [hid, hfind]
        have hset : dictSet id ⟨q.1, 0, q.2, q.2 * (0.4 : ℚ)⟩ m =
            m ++ [(id, ⟨q.1, 0, q.2, q.2 * (0.4 : ℚ)⟩)] := by
          simp [dictSet, hk]
        rw [hset]
        have hkeys2 : (keys (m ++ [(id, (⟨q.1, 0, q.2, q.2 * (0.4 : ℚ)⟩ :
            MergeEntry))])).Nodup := by
          simp only [keys, List.map_append, List.map_cons, List.map_nil]
          rw [List.nodup_append]
          refine ⟨hkeys, List.nodup_singleton _, ?_⟩
          intro x hx hx2
          simp only [List.mem_singleton] at hx2
          subst hx2
          exact hidk hx
        rw [ih _ hb.2 hkeys2]
        rw [List.map_append]
        have h1 : m.map (updEntry rest) = m.map (updEntry (q :: rest)) := by
          apply List.map_congr_left
          intro kv hkv
          have hne : kv.1 ≠ id := by
            intro hcon
            exact hidk (by
              simp only [keys, List.mem_map]
              exact ⟨kv, hkv, hcon⟩)
          simp [updEntry, hbskip kv.1 hne]
        have h2 : [(id, (⟨q.1, 0, q.2, q.2 * (0.4 : ℚ)⟩ : MergeEntry))].map
            (updEntry rest) =
            [(id, (⟨q.1, 0, q.2, q.2 * (0.4 : ℚ)⟩ : MergeEntry))] := by
          simp [updEntry, hbrest]
        have h3 : bNew rest (keys (m ++ [(id, (⟨q.1, 0, q.2,
            q.2 * (0.4 : ℚ)⟩ : MergeEntry))])) = bNew rest (keys m) := by
          apply List.filterMap_congr
          intro q2 hq2
          cases hid2 : truthyId q2.1 with
          | none => simp
          | some id2 =>
            have hne : id2 ≠ id := by
              intro hcon
              exact hb.1 (hcon ▸ List.mem_filterMap.mpr ⟨q2, hq2, hid2⟩)
            have hmemiff : (id2 ∈ keys (m ++ [(id, (⟨q.1, 0, q.2,
                q.2 * (0.4 : ℚ)⟩ : MergeEntry))])) ↔ id2 ∈ keys m := by
              simp only [keys, List.map_append, List.map_cons, List.map_nil,
                List.mem_append, List.mem_singleton]
              constructor
              · rintro (h | h)
                · exact h
                · exact absurd h hne
              · exact Or.inl
            by_cases hmem : id2 ∈ keys m
            · simp [hmem, hmemiff.mpr hmem]
            · simp only []
              rw [if_neg (by rw [hmemiff]; exact hmem), if_neg hmem]
        have h4 : bNew (q :: rest) (keys m) =
            (id, (⟨q.1, 0, q.2, q.2 * (0.4 : ℚ)⟩ : MergeEntry)) ::
              bNew rest (keys m) := by
          simp [bNew, List.filterMap_cons, hid, hidk]
        rw [h1, h2, h3, h4]
        simp [List.append_assoc]

theorem keys_vMap (v : List (RChunk × ℚ)) :
    keys (vMap v) = v.filterMap (fun p => truthyId p.1) := by
  simp only [keys, vMap, List.map_filterMap]
  apply List.filterMap_congr
  intro p _
  cases h : truthyId p.1 <;> simp [vEntry, h]

/-- On a list with pairwise-distinct truthy ids, the search by id returns
exactly the member carrying that id. -/
theorem find_by_id_unique (l : List (RChunk × ℚ))
    (hl : (l.filterMap (fun p => truthyId p.1)).Nodup) (p : RChunk × ℚ)
    (hp : p ∈ l) (id : List Char) (hid : truthyId p.1 = some id) :
    l.find? (fun x => decide (truthyId x.1 = some id)) = some p := by
  induction l with
  | nil => simp at hp
  | cons x rest ih =>
    rcases List.mem_cons.mp hp with rfl | hp2
    · simp [List.find?, hid]
    · by_cases hx : truthyId x.1 = some id
      · exfalso
        have h1 : id ∈ rest.filterMap (fun p => truthyId p.1) :=
          List.mem_filterMap.mpr ⟨p, hp2, hid⟩
        have h2 : (x :: rest).filterMap (fun p => truthyId p.1) =
            id :: rest.filterMap (fun p => truthyId p.1) := by
          simp [List.filterMap_cons, hx]
        rw [h2, List.nodup_cons] at hl
        exact hl.1 h1
      · have hrest : (rest.filterMap (fun p => truthyId p.1)).Nodup := by
          cases hfx : truthyId x.1 with
          | none => simpa [List.filterMap_cons, hfx] using hl
          | some id2 =>
            rw [show (x :: rest).filterMap (fun p => truthyId p.1) =
              id2 :: rest.filterMap (fun p => truthyId p.1) by
                simp [List.filterMap_cons, hfx], List.nodup_cons] at hl
            exact hl.2
        simp only [List.find?]
        rw [show decide (truthyId x.1 = some id) = false by simp [hx]]
        exact ih hrest hp2

/-- Every entry of the merged map carries the chunk of its own id and the
fused combined score `0.6·vector + 0.4·bm25` with 0 for an absent side. -/
theorem mergedMap_spec (v b : List (RChunk × ℚ))
    (hv : (v.filterMap (fun p => truthyId p.1)).Nodup)
    (hb : (b.filterMap (fun p => truthyId p.1)).Nodup) :
    ∀ kv ∈ mergedMap v b,
      truthyId kv.2.chunk = some kv.1 ∧
      kv.2.combined_score =
        vLookId v kv.1 * (0.6 : ℚ) + bLookId b kv.1 * (0.4 : ℚ) := by
  have h1 : addVector [] v = vMap v := by
    have := addVector_closed v [] hv (by intro id _; simp [hasKey])
    simpa using this
  have hkeysnodup : (keys (vMap v)).Nodup := by
    rw [keys_vMap]
    exact hv
  have h2 : mergedMap v b =
      (vMap v).map (updEntry b) ++ bNew b (keys (vMap v)) := by
    rw [mergedMap, h1, addBm25_closed b (vMap v) hb hkeysnodup]
  intro kv hkv
  rw [h2] at hkv
  rcases List.mem_append.mp hkv with hkv1 | hkv2
  · obtain ⟨kv0, hkv0, rfl⟩ := List.mem_map.mp hkv1
    obtain ⟨p, hp, hpe⟩ := List.mem_filterMap.mp hkv0
    cases hid : truthyId p.1 with
    | none => simp [vEntry, hid] at hpe
    | some id =>
      simp only [vEntry, hid, Option.map_some', Option.some.injEq] at hpe
      subst hpe
      have hvl : vLookId v id = p.2 := by
        rw [vLookId, find_by_id_unique v hv p hp id hid]
      cases hbf : bFind b id with
      | some qq =>
        have hbl : bLookId b id = qq.2 := by rw [bLookId, hbf]
        simp only [updEntry, hbf]
        exact ⟨hid, by rw [hvl, hbl]⟩
      | none =>
        have hbl : bLookId b id = 0 := by rw [bLookId, hbf]
        simp only [updEntry, hbf]
        refine ⟨hid, ?_⟩
        rw [hvl, hbl]
        ring
  · obtain ⟨qq, hqq, hqe⟩ := List.mem_filterMap.mp hkv2
    cases hid : truthyId qq.1 with
    | none => simp [hid] at hqe
    | some id =>
      simp only [hid] at hqe
      by_cases hmem : id ∈ keys (vMap v)
      · rw [if_pos hmem] at hqe; simp at hqe
      · rw [if_neg hmem] at hqe
        simp only [Option.some.injEq] at hqe
        subst hqe
        have hvl : vLookId v id = 0 := by
          rw [vLookId, List.find?_eq_none.mpr]
          intro p hp
          simp only [decide_eq_true_eq]
          intro hcon
          exact hmem (by
            rw [keys_vMap]
            exact List.mem_filterMap.mpr ⟨p, hp, hcon⟩)
        have hbl : bLookId b id = qq.2 := by
          rw [bLookId, bFind, find_by_id_unique b hb qq hqq id hid]
        refine ⟨hid, ?_⟩
        rw [hvl, hbl]
        ring

/-- C3: `_merge_results` merges by chunk identity, gives every returned
chunk the combined score `0.6·vector_score + 0.4·bm25_score` (an absent
side contributing 0), and returns the top `3·top_k` candidates ordered by
combined score descending. -/
theorem merge_results_spec (v b : List (RChunk × ℚ)) (k : Nat)
    (hv : (v.filterMap (fun p => truthyId p.1)).Nodup)
    (hb : (b.filterMap (fun p => truthyId p.1)).Nodup) :
    (∀ p ∈ mergeResults v b (3 * k), ∃ id, truthyId p.1 = some id ∧
      p.2 = vLookId v id * (0.6 : ℚ) + bLookId b id * (0.4 : ℚ)) ∧
    (mergeResults v b (3 * k)).Sorted (fun x y => y.2 ≤ x.2) ∧
    (mergeResults v b (3 * k)).length = min (3 * k) (mergedMap v b).length ∧
    (∃ dropped, (((mergedMap v b).map Prod.snd).insertionSort scoreGe).map
        (fun e => (e.chunk, e.combined_score)) =
        mergeResults v b (3 * k) ++ dropped ∧
      ∀ p ∈ mergeResults v b (3 * k), ∀ pd ∈ dropped, pd.2 ≤ p.2) := by
  have hmr : mergeResults v b (3 * k) =
      ((((mergedMap v b).map Prod.snd).insertionSort scoreGe).take (3 * k)).map
        (fun e => (e.chunk, e.combined_score)) := rfl
  set S := ((mergedMap v b).map Prod.snd).insertionSort scoreGe with hS
  have hsort : S.Sorted scoreGe := List.sorted_insertionSort scoreGe _
  have hperm : S.Perm ((mergedMap v b).map Prod.snd) :=
    List.perm_insertionSort scoreGe _
  have hmemS : ∀ e ∈ S, truthyId e.chunk ≠ none ∧ ∃ id,
      truthyId e.chunk = some id ∧
      e.combined_score = vLookId v id * (0.6 : ℚ) + bLookId b id * (0.4 : ℚ) := by
    intro e he
    have he2 : e ∈ (mergedMap v b).map Prod.snd := hperm.subset he
    obtain ⟨kv, hkv, rfl⟩ := List.mem_map.mp he2
    obtain ⟨h1, h2⟩ := mergedMap_spec v b hv hb kv hkv
    exact ⟨by rw [h1]; simp, kv.1, h1, h2⟩
  refine ⟨?_, ?_, ?_, ?_⟩
  · intro p hp
    rw [hmr] at hp
    obtain ⟨e, he, rfl⟩ := List.mem_map.mp hp
    obtain ⟨-, id, hid, hsc⟩ := hmemS e (List.mem_of_mem_take he)
    exact ⟨id, hid, hsc⟩
  · rw [hmr]
    rw [List.Sorted, List.pairwise_map]
    exact List.Pairwise.sublist (List.take_sublist _ _) hsort
  · rw [hmr]
    simp [List.length_map, List.length_take, hperm.length_eq]
  · refine ⟨(S.drop (3 * k)).map (fun e => (e.chunk, e.combined_score)),
      ?_, ?_⟩
    · rw [hmr]
      rw [← List.map_append, List.take_append_drop]
    · intro p hp pd hpd
      rw [hmr] at hp
      obtain ⟨e, he, rfl⟩ := List.mem_map.mp hp
      obtain ⟨e2, he2, rfl⟩ := List.mem_map.mp hpd
      have hpw := List.pairwise_append.mp
        (by rw [List.take_append_drop (3 * k) S]; exact hsort)
      exact hpw.2.2 e he e2 he2

/-- Witness for C3 at concrete single-element result lists. -/
theorem merge_results_spec_witness :
    (mergeResults
      [(⟨some (str "a"), str "f", str "fix", 10, false, false⟩, (1 : ℚ))]
      [(⟨some (str "b"), str "g", str "validate", 5, true, true⟩, (1 : ℚ)/2)]
      (3 * 1)).Sorted (fun x y => y.2 ≤ x.2) :=
  (merge_results_spec
    [(⟨some (str "a"), str "f", str "fix", 10, false, false⟩, (1 : ℚ))]
    [(⟨some (str "b"), str "g", str "validate", 5, true, true⟩, (1 : ℚ)/2)]
    1 (by decide) (by decide)).2.1

/-- The diversity post-pass is the identity whenever its input holds at
most `top_k` results — and the MMR stage never hands it more. -/
theorem enforce_diversity_noop (results : List (RChunk × ℚ)) (k : Nat)
    (h : results.length ≤ k) :
    enforceDiversityConstraints results k = results := by
  simp [enforceDiversityConstraints, h]

/-- C4: a failing input for the diversity invariant.  The candidate set
spans the two files `f` and `g`, the final result after MMR and the
diversity-constraint post-pass has 2 chunks, yet both come from file `f`
(and from the single section type `fix`): the post-pass returns its input
unchanged because the MMR output already has at most `top_k` elements. -/
theorem diversity_invariant_violated :
    (mmrDiversitySelection true
      [(⟨some (str "a1"), str "f", str "fix", 100, false, false⟩, (1 : ℚ)),
       (⟨some (str "a2"), str "f", str "fix", 100, false, false⟩, (9 : ℚ)/10),
       (⟨some (str "b"), str "g", str "validate", 5, true, true⟩, 0)] 2 =
      [(⟨some (str "a1"), str "f", str "fix", 100, false, false⟩, (1 : ℚ)),
       (⟨some (str "a2"), str "f", str "fix", 100, false, false⟩,
         (9 : ℚ)/10)]) ∧
    (enforceDiversityConstraints
      [(⟨some (str "a1"), str "f", str "fix", 100, false, false⟩, (1 : ℚ)),
       (⟨some (str "a2"), str "f", str "fix", 100, false, false⟩,
         (9 : ℚ)/10)] 2 =
      [(⟨some (str "a1"), str "f", str "fix", 100, false, false⟩, (1 : ℚ)),
       (⟨some (str "a2"), str "f", str "fix", 100, false, false⟩,
         (9 : ℚ)/10)]) ∧
    (∀ p ∈ enforceDiversityConstraints (mmrDiversitySelection true
      [(⟨some (str "a1"), str "f", str "fix", 100, false, false⟩, (1 : ℚ)),
       (⟨some (str "a2"), str "f", str "fix", 100, false, false⟩, (9 : ℚ)/10),
       (⟨some (str "b"), str "g", str "validate", 5, true, true⟩, 0)] 2) 2,
      p.1.filename = str "f" ∧ p.1.section_type = str "fix") ∧
    2 ≤ (enforceDiversityConstraints (mmrDiversitySelection true
      [(⟨some (str "a1"), str "f", str "fix", 100, false, false⟩, (1 : ℚ)),
       (⟨some (str "a2"), str "f", str "fix", 100, false, false⟩, (9 : ℚ)/10),
       (⟨some (str "b"), str "g", str "validate", 5, true, true⟩, 0)] 2)
        2).length := by
  norm_num +decide [mmrDiversitySelection, mmrLoop, calcDiversity,
    featureSimilarity, extractChunkFeatures, mmrLambda, mmrGe,
    List.insertionSort, List.orderedInsert, enforceDiversityConstraints,
    enforceLoop, fillLoop, truthyId, minSectionCoverage, targetSectionTypes,
    str]

/-- C7: the pipeline never propagates a stage failure: on any pipeline
error `retrieve_diverse_results` falls back to plain vector search with
the original (non-rewritten) query, and if that also fails it returns the
empty list; on success it returns the pipeline result unchanged. -/
theorem retrieve_fallback_policy (o : Oracles) (q : List Char) (k : Nat) :
    (∀ e, retrievePipeline o q k = .error e →
      retrieveDiverseResults o q k = fallbackVectorSearch o q k) ∧
    (∀ e e2, retrievePipeline o q k = .error e →
      o.vectorSearch q k = .error e2 → retrieveDiverseResults o q k = []) ∧
    (∀ r, retrievePipeline o q k = .ok r →
      retrieveDiverseResults o q k = r) := by
  refine ⟨?_, ?_, ?_⟩
  · intro e he
    simp [retrieveDiverseResults, he]
  · intro e e2 he hv
    simp [retrieveDiverseResults, he, fallbackVectorSearch, hv]
  · intro r hr
    simp [retrieveDiverseResults, hr]

/-- Witness for C7: with every collaborator failing, retrieval returns the
empty list rather than raising. -/
theorem retrieve_fallback_policy_witness :
    retrieveDiverseResults failingOracles (str "q") 8 = [] :=
  (retrieve_fallback_policy failingOracles (str "q") 8).2.1 0 0 rfl rfl


end Retrieval

namespace Planner

/-- C8: classification into first_checks/fix/validate uses the source
chunk\x27s own section_type whenever that type is one of the three buckets;
only otherwise does it fall back to keyword matching on the bullet text, and
a bullet matching no keywords defaults to first_checks.  Stated as: the
classifier output is exactly the input filtered by the per-bullet bucket
function `bucketOf` (which prefers the chunk section type), and `bucketOf`
itself respects the chunk type and the no-keyword default. -/
theorem classify_bullets_by_section (bullets : List PBullet) :
    classifyBullets bullets =
      (bullets.filter (fun b => decide (bucketOf b = fcKey)),
       bullets.filter (fun b => decide (bucketOf b = fixKey)),
       bullets.filter (fun b => decide (bucketOf b = valKey))) ∧
    (∀ b : PBullet,
      ((chunkSectionType b = fcKey ∨ chunkSectionType b = fixKey ∨
          chunkSectionType b = valKey) → bucketOf b = chunkSectionType b) ∧
      (¬(chunkSectionType b = fcKey ∨ chunkSectionType b = fixKey ∨
          chunkSectionType b = valKey) →
        anyWordIn fcWords (lowerL b.content) = false →
        anyWordIn fixWords (lowerL b.content) = false →
        anyWordIn valWords (lowerL b.content) = false →
        bucketOf b = fcKey)) := by
  constructor
  · induction bullets with
    | nil => rfl
    | cons b rest ih =>
      simp only [classifyBullets, ih, List.filter_cons]
      unfold bucketOf
      by_cases h1 : chunkSectionType b = fcKey
      · simp [h1, fcKey, fixKey, valKey, str]
      · by_cases h2 : chunkSectionType b = fixKey
        · simp [h1, h2, fcKey, fixKey, valKey, str]
        · by_cases h3 : chunkSectionType b = valKey
          · simp [h1, h2, h3, fcKey, fixKey, valKey, str]
          · simp only [h1, h2, h3, if_false, or_false, false_or]
            by_cases k1 : anyWordIn fcWords (lowerL b.content) = true
            · simp [k1, fcKey, fixKey, valKey, str]
            · by_cases k2 : anyWordIn fixWords (lowerL b.content) = true
              · simp [k1, k2, fcKey, fixKey, valKey, str]
              · by_cases k3 : anyWordIn valWords (lowerL b.content) = true
                · simp [k1, k2, k3, fcKey, fixKey, valKey, str]
                · simp [k1, k2, k3, fcKey, fixKey, valKey, str]
  · intro b
    constructor
    · intro h
      unfold bucketOf
      simp only [h, if_true, if_pos h]
    · intro h k1 k2 k3
      unfold bucketOf
      simp only [if_neg h, k1, k2, k3, Bool.false_eq_true, if_false]

/-- Witness for C8 at concrete bullets: a bullet whose chunk metadata says
`fix` lands in the fix bucket even though its text says "check"; a bullet
with no usable metadata and no keywords defaults to first_checks. -/
theorem classify_bullets_by_section_witness :
    classifyBullets
        [⟨str "check the disk", some [(str "section_type", str "fix")]⟩,
         ⟨str "go outside", none⟩] =
      ([⟨str "go outside", none⟩],
       [⟨str "check the disk", some [(str "section_type", str "fix")]⟩],
       []) ∧
    bucketOf ⟨str "go outside", none⟩ = fcKey := by
  have h := classify_bullets_by_section
    [⟨str "check the disk", some [(str "section_type", str "fix")]⟩,
     ⟨str "go outside", none⟩]
  refine ⟨?_, ?_⟩
  · rw [h.1]; decide
  · exact (h.2 ⟨str "go outside", none⟩).2 (by decide) (by decide)
      (by decide) (by decide)


end Planner

namespace Sectionizer

theorem enumFrom_fst_mem {p : List Char × Nat} :
    ∀ {n : Nat} {L : List (List Char)}, p ∈ enumFrom n L → p.1 ∈ L := by
  intro n L
  induction L generalizing n with
  | nil => intro h; simp [enumFrom] at h
  | cons l rest ih =>
    intro h
    simp only [enumFrom, List.mem_cons] at h
    rcases h with h | h
    · subst h; exact List.mem_cons_self _ _
    · exact List.mem_cons_of_mem _ (ih h)

theorem enumFrom_append (A B : List (List Char)) :
    ∀ n : Nat, enumFrom n (A ++ B) = enumFrom n A ++ enumFrom (n + A.length) B := by
  induction A with
  | nil => intro n; simp [enumFrom]
  | cons l rest ih =>
    intro n
    have h2 : n + 1 + rest.length = n + (rest.length + 1) := by omega
    simp only [List.cons_append, List.append_eq, enumFrom, List.length_cons,
      ih (n + 1), h2]

/-- While no section is open, non-heading lines change nothing: the loop
drops them. -/
theorem detectSectionsGo_skip_pre (total : Nat)
    (pairs tail : List (List Char × Nat)) (content : List (List Char))
    (acc : List Section)
    (h : ∀ p ∈ pairs, detectHeading (stripWs p.1) = none) :
    detectSectionsGo total (pairs ++ tail) none content acc =
      detectSectionsGo total tail none content acc := by
  induction pairs with
  | nil => rfl
  | cons p rest ih =>
    obtain ⟨line, n⟩ := p
    have hp : detectHeading (stripWs line) = none := h _ (List.mem_cons_self _ _)
    simp only [List.cons_append, detectSectionsGo, hp]
    exact ih (fun q hq => h q (List.mem_cons_of_mem _ hq))

theorem splitNl_ne_nil (cs : List Char) : splitNl cs ≠ [] := by
  cases cs with
  | nil => simp [splitNl]
  | cons c rest =>
    simp only [splitNl]
    cases h : splitNl rest with
    | nil => simp
    | cons x t => by_cases hc : c = '\n' <;> simp [hc]

theorem splitNl_no_nl (x : List Char) (h : '\n' ∉ x) : splitNl x = [x] := by
  induction x with
  | nil => rfl
  | cons c rest ih =>
    have hc : c ≠ '\n' := fun hc => h (hc ▸ List.mem_cons_self _ _)
    have hrest : '\n' ∉ rest := fun hm => h (List.mem_cons_of_mem _ hm)
    simp only [splitNl, ih hrest]
    rw [if_neg hc]

theorem splitNl_append_nl (x t : List Char) (h : '\n' ∉ x) :
    splitNl (x ++ '\n' :: t) = x :: splitNl t := by
  induction x with
  | nil =>
    simp only [List.nil_append, splitNl]
    rcases ht : splitNl t with _ | ⟨y, r⟩
    · exact absurd ht (splitNl_ne_nil t)
    · simp
  | cons c rest ih =>
    have hc : c ≠ '\n' := fun hc => h (hc ▸ List.mem_cons_self _ _)
    have hrest : '\n' ∉ rest := fun hm => h (List.mem_cons_of_mem _ hm)
    simp only [List.cons_append, List.append_eq, splitNl]
    rw [ih hrest]
    simp [hc]

/-- `'\n'.join` / `split('\n')` round-trip for a nonempty list of
newline-free lines. -/
theorem splitNl_joinWith (L : List (List Char)) (hne : L ≠ [])
    (h : ∀ l ∈ L, '\n' ∉ l) : splitNl (joinWith (str "\n") L) = L := by
  induction L with
  | nil => exact absurd rfl hne
  | cons x rest ih =>
    cases rest with
    | nil =>
      simp only [joinWith]
      exact splitNl_no_nl x (h x (List.mem_cons_self _ _))
    | cons y r =>
      have hx : '\n' ∉ x := h x (List.mem_cons_self _ _)
      have hj : joinWith (str "\n") (x :: y :: r) =
          x ++ '\n' :: joinWith (str "\n") (y :: r) := by
        simp [joinWith, str]
      rw [hj, splitNl_append_nl _ _ hx,
        ih (by simp) (fun l hl => h l (List.mem_cons_of_mem _ hl))]

/-- C9: a document none of whose lines matches any heading-recognition
pattern yields zero sections — `detect_sections` neither wraps the document
in a default section nor raises. -/
theorem detect_sections_no_headings (content : List Char)
    (h : ∀ l ∈ splitNl content, detectHeading (stripWs l) = none) :
    detectSections content = [] := by
  simp only [detectSections]
  have hskip := detectSectionsGo_skip_pre (splitNl content).length
    (enumFrom 0 (splitNl content)) [] [] []
    (fun p hp => h p.1 (enumFrom_fst_mem hp))
  rw [List.append_nil] at hskip
  rw [hskip]
  rfl

/-- Witness for C9 on a concrete two-line document. -/
theorem detect_sections_no_headings_witness :
    detectSections (str "hello\nworld.") = [] :=
  detect_sections_no_headings (str "hello\nworld.") (by decide)

/-- C10: for a document with headings, the non-heading lines before the
first heading are silently dropped: the output of `detect_sections` does not
depend on the text of an equal-length newline-free non-heading preamble, so
preamble text appears in the content (or any other field) of no returned
section. -/
theorem detect_sections_preamble_dropped (pre1 pre2 rest : List (List Char))
    (h1 : ∀ l ∈ pre1, detectHeading (stripWs l) = none)
    (h2 : ∀ l ∈ pre2, detectHeading (stripWs l) = none)
    (hn1 : ∀ l ∈ pre1, '\n' ∉ l) (hn2 : ∀ l ∈ pre2, '\n' ∉ l)
    (hnr : ∀ l ∈ rest, '\n' ∉ l) (hlen : pre1.length = pre2.length)
    (hrest : rest ≠ []) :
    detectSections (joinWith (str "\n") (pre1 ++ rest)) =
      detectSections (joinWith (str "\n") (pre2 ++ rest)) := by
  have hner : ∀ pre : List (List Char), pre ++ rest ≠ [] := by
    intro pre hc
    exact hrest (List.append_eq_nil.mp hc).2
  have hmem : ∀ (pre : List (List Char)), (∀ l ∈ pre, '\n' ∉ l) →
      ∀ l ∈ pre ++ rest, '\n' ∉ l := by
    intro pre hp l hl
    rcases List.mem_append.mp hl with hl | hl
    · exact hp l hl
    · exact hnr l hl
  simp only [detectSections]
  rw [splitNl_joinWith _ (hner pre1) (hmem pre1 hn1),
    splitNl_joinWith _ (hner pre2) (hmem pre2 hn2)]
  rw [enumFrom_append pre1 rest 0, enumFrom_append pre2 rest 0]
  rw [detectSectionsGo_skip_pre _ _ _ _ _
      (fun p hp => h1 p.1 (enumFrom_fst_mem hp)),
    detectSectionsGo_skip_pre _ _ _ _ _
      (fun p hp => h2 p.1 (enumFrom_fst_mem hp))]
  simp only [List.length_append, hlen, Nat.zero_add]

/-- Witness for C10: replacing the one-line preamble "alpha" by "bravo"
leaves the detected sections unchanged. -/
theorem detect_sections_preamble_dropped_witness :
    detectSections (joinWith (str "\n")
        ([str "alpha"] ++ [str "# T", str "body"])) =
      detectSections (joinWith (str "\n")
        ([str "bravo"] ++ [str "# T", str "body"])) :=
  detect_sections_preamble_dropped [str "alpha"] [str "bravo"]
    [str "# T", str "body"] (by decide) (by decide) (by decide) (by decide)
    (by decide) (by decide) (by decide)

end Sectionizer

namespace DocProcessor

open Sectionizer

set_option maxRecDepth 16000

/-- C2 counterexample: two documents differing only in the length of their
heading-free preamble yield, at chunk index 1, chunks with the same filename,
the same content (hence the same value under any content hash) and the same
primary-section title, yet different chunk ids (`f_10_111` vs `f_20_121`) —
so the id cannot be derived from `{filename, section_title, chunk_index}`
via a content hash; it is built from the chunk\x27s line numbers, which the
100-line overlap cap decouples from the chunk\x27s content. -/
theorem chunk_id_not_hash_cex :
    ((processChunks (str "f") (cexDoc 110)).get? 1).isSome = true ∧
    ((processChunks (str "f") (cexDoc 110)).get? 1).map ChunkData.content =
      ((processChunks (str "f") (cexDoc 120)).get? 1).map ChunkData.content ∧
    (((processChunks (str "f") (cexDoc 110)).get? 1).bind
        ChunkData.primarySection).map Section.title =
      (((processChunks (str "f") (cexDoc 120)).get? 1).bind
        ChunkData.primarySection).map Section.title ∧
    ((processChunks (str "f") (cexDoc 110)).get? 1).map ChunkData.id ≠
      ((processChunks (str "f") (cexDoc 120)).get? 1).map ChunkData.id := by
  decide

/-- Every chunk the generation loop emits carries the line-span id. -/
theorem genChunksGo_id_shape (filename : List Char) (sections : List Section)
    (lines : List (List Char)) (total : Nat) :
    ∀ (pairs : List (List Char × Nat)) (cur : List (List Char))
      (nums : List Nat) (cs : Nat),
      ∀ c ∈ genChunksGo filename sections lines total pairs cur nums cs,
        c.id = filename ++ str "_" ++ natStr c.start_line ++ str "_" ++
          natStr c.end_line := by
  intro pairs
  induction pairs with
  | nil =>
    intro cur nums cs c hc
    dsimp only [genChunksGo] at hc
    split at hc
    · simp at hc
    · simp only [List.mem_singleton] at hc
      subst hc; rfl
  | cons p rest ih =>
    intro cur nums cs c hc
    obtain ⟨line, n⟩ := p
    dsimp only [genChunksGo] at hc
    split at hc
    · rcases List.mem_cons.mp hc with hc | hc
      · subst hc; rfl
      · exact ih _ _ _ _ hc
    · exact ih _ _ _ _ hc

/-- C2 (amended): chunk identity is deterministic and idempotent —
re-processing the identical `(filename, content)` input yields the identical
chunk list, the pipeline being a pure function of its input — and each id is
the line-span string `f"{filename}_{start_line}_{end_line}"`, not a content
hash over `{filename, section_title, chunk_index}`. -/
theorem chunk_id_deterministic (filename content : List Char) :
    processChunks filename content = processChunks filename content ∧
    ∀ c ∈ processChunks filename content,
      c.id = filename ++ str "_" ++ natStr c.start_line ++ str "_" ++
        natStr c.end_line := by
  refine ⟨rfl, fun c hc => ?_⟩
  simp only [processChunks, generateChunks] at hc
  exact genChunksGo_id_shape filename _ _ _ _ _ _ _ c hc

/-- Witness for the amended C2 theorem on a concrete two-line document. -/
theorem chunk_id_deterministic_witness :
    (⟨str "f_0_1", str "a\nb", 0, 1, [], none⟩ : ChunkData) ∈
        processChunks (str "f") (str "a\nb") ∧
    (⟨str "f_0_1", str "a\nb", 0, 1, [], none⟩ : ChunkData).id =
      str "f" ++ str "_" ++ natStr 0 ++ str "_" ++ natStr 1 :=
  ⟨by decide,
   (chunk_id_deterministic (str "f") (str "a\nb")).2 _ (by decide)⟩


end DocProcessor

end Runbook
